import Mathlib

/-!
Shallow embedding of `src/dynspv_generator.py`, a SPIR-V grammar driven
C++ code generator.  Python strings are modelled as `List Char` (ASCII
suffices for every string the generator manipulates), fallible code
(exceptions: `KeyError`, `NotImplementedError`, `AssertionError`,
`AttributeError`) is modelled with `Except`, and the unguarded recursion
of the composite type resolver is made total with a fuel parameter.
-/

namespace DynSpv

abbrev Str := List Char

def pyStr (s : String) : Str := s.data

/-- The apostrophe character, used by the raw-name regular expressions. -/
def quoteChar : Char := Char.ofNat 39

/-- Python regex `\w` on the ASCII strings the generator sees. -/
def isWordChar (c : Char) : Bool := c.isAlphanum || c = '_'

/-- ASCII whitespace as stripped by Python `str.strip`. -/
def isSpaceChar (c : Char) : Bool :=
  c = ' ' || c = '\t' || c = '\n' || c = '\r'

/-- Python `s.strip()` on ASCII text. -/
def pyStrip (l : Str) : Str :=
  ((l.dropWhile isSpaceChar).reverse.dropWhile isSpaceChar).reverse

/-- Python `s.isupper()`: at least one cased character and no lowercase
cased character (ASCII: cased = letter). -/
def pyIsUpper (l : Str) : Bool :=
  l.any (fun c => c.isAlpha) && l.all (fun c => !c.isLower)

/-- `decapitalize` from the source: `s` unchanged when `s.isupper()`,
otherwise `s[:1].lower() + s[1:]`. -/
def decapitalize (s : Str) : Str :=
  if pyIsUpper s then s
  else
    match s with
    | [] => []
    | c :: t => c.toLower :: t

/-- `capitalize` from the source: `s[:1].upper() + s[1:]`. -/
def capitalize (s : Str) : Str :=
  match s with
  | [] => []
  | c :: t => c.toUpper :: t

/-- `literal_dict` from the source. -/
def literal_dict (k : Str) : Option Str :=
  if k = "LiteralInteger".data then some "uint32_t".data
  else if k = "LiteralString".data then some "std::string".data
  else if k = "LiteralFloat".data then some "float".data
  else if k = "LiteralContextDependentNumber".data then some "spvConstant auto".data
  else if k = "LiteralExtInstInteger".data then some "uint32_t".data
  else if k = "LiteralSpecConstantOpInteger".data then some "uint32_t".data
  else none

/-- One entry of the grammar's `operand_kinds` collection (the fields the
generator reads: `kind`, `category`, and `bases` which may be absent). -/
structure OperandKindInfo where
  kind : Str
  category : Str
  bases : Option (List Str) := none
deriving DecidableEq, Repr

abbrev Catalog := List OperandKindInfo

deriving instance DecidableEq for Except

/-- The `operands` dictionary built by
`dict(map(lambda x: (x["kind"], x), operands))`: keyed by kind, a later
entry with the same kind overrides an earlier one. -/
def lookupKind (cat : Catalog) (k : Str) : Option OperandKindInfo :=
  cat.reverse.find? (fun i => i.kind = k)

/-- One operand of an instruction's grammar entry (the fields the
generator reads: `kind`, optional `quantifier`, optional `name`). -/
structure Operand where
  kind : Str
  quantifier : Option Str := none
  name : Option Str := none
deriving DecidableEq, Repr

/-- One instruction grammar entry: `opname` plus the optional `operands`
list. -/
structure Instruction where
  opname : Str
  operands : Option (List Operand) := none
deriving DecidableEq, Repr

/-- The exceptions the generator can raise while processing an operand:
`NotImplementedError` for an unknown category or quantifier, `KeyError`
for a literal kind missing from `literal_dict`, a kind missing from the
catalog, or a missing `bases` field, `AttributeError` for a failed
`re.search(...).group`, `AssertionError` for a non-unique ellipsis base
token; `noFuel` marks exhaustion of the recursion fuel of the shallow
embedding (the Python source recurses unboundedly). -/
inductive Err where
  | unknownCategory (c : Str)
  | unknownQuantifier (q : Str)
  | unmappedLiteral (k : Str)
  | missingKind (k : Str)
  | missingBases (k : Str)
  | attrError
  | assertError
  | noFuel
deriving DecidableEq, Repr

/-- Python `", ".join` / `" ".join` / `"\n".join`. -/
def joinStr (sep : Str) : List Str → Str
  | [] => []
  | [x] => x
  | x :: y :: xs => x ++ sep ++ joinStr sep (y :: xs)

/-- One unfolding step of `get_base_cpp_type`; `rec` stands for the
recursive call used on composite bases. -/
def get_base_step (cat : Catalog) (rec : Str → Except Err Str) (k : Str) :
    Except Err Str :=
  match lookupKind cat k with
  | none => .error (.missingKind k)
  | some info =>
    if info.category = "Id".data then .ok k
    else if info.category = "Literal".data then
      match literal_dict k with
      | some t => .ok t
      | none => .error (.unmappedLiteral k)
    else if info.category = "ValueEnum".data then .ok ("spv::".data ++ k)
    else if info.category = "BitEnum".data then
      .ok ("spv::".data ++ k ++ "Mask".data)
    else if info.category = "Composite".data then
      match info.bases with
      | none => .error (.missingBases k)
      | some bs => do
        let bkinds ← bs.mapM (fun b =>
          match lookupKind cat b with
          | some bi => Except.ok bi.kind
          | none => Except.error (Err.missingKind b))
        let btypes ← bkinds.mapM rec
        .ok ("std::tuple<".data ++ joinStr ", ".data btypes ++ ">".data)
    else .error (.unknownCategory info.category)

/-- `get_base_cpp_type` from the source, with a fuel bound on the
composite recursion depth. -/
def get_base_cpp_type (cat : Catalog) : Nat → Str → Except Err Str
  | 0 => fun _ => .error .noFuel
  | fuel + 1 => get_base_step cat (get_base_cpp_type cat fuel)

/-- The quantifier match of `get_cpp_type` (lines 74-78): the absent
quantifier leaves the base type unchanged, the markers question mark and
asterisk wrap it in optional/vector, anything else raises
`NotImplementedError`. -/
def applyQuantifier (base : Str) : Option Str → Except Err Str
  | none => .ok base
  | some q =>
    if q = "?".data then .ok ("std::optional<".data ++ base ++ ">".data)
    else if q = "*".data then .ok ("std::vector<".data ++ base ++ ">".data)
    else .error (.unknownQuantifier q)

/-- `get_cpp_type` from the source: base type resolution followed by the
quantifier wrapper. -/
def get_cpp_type (cat : Catalog) (fuel : Nat) (op : Operand) :
    Except Err Str := do
  let base ← get_base_cpp_type cat fuel op.kind
  applyQuantifier base op.quantifier

/-- `reserved_cpp_keywords` from the source. -/
def reserved_cpp_keywords : List Str :=
  ["asm", "auto", "break", "case", "catch", "char", "class", "const",
   "continue", "default", "delete", "do", "double", "else", "enum",
   "extern", "float", "for", "friend", "goto", "if", "inline", "int",
   "long", "new", "operator", "private", "protected", "public",
   "register", "return", "short", "signed", "sizeof", "static", "struct",
   "switch", "template", "this", "throw", "try", "typedef", "union",
   "unsigned", "virtual", "void", "volatile", "while"].map String.data

/-- `re.search(r"'([\w ]*)', ", name)`: scan the positions of `name` left
to right; at a position holding an apostrophe take the maximal run of
word/space characters after it (the pattern class excludes the
apostrophe, so the greedy group is forced to this run) and succeed with
that run as group 1 when it is followed by `', `. -/
def searchGroup : Str → Option Str
  | [] => none
  | c :: rest =>
    if c = quoteChar then
      let run := rest.takeWhile (fun d => isWordChar d || d = ' ')
      let after := rest.dropWhile (fun d => isWordChar d || d = ' ')
      if (quoteChar :: ", ".data).isPrefixOf after then some run
      else searchGroup rest
    else searchGroup rest

/-- `re.sub(r" \d", "", name)`: delete every non-overlapping occurrence
of a space followed by a digit, resuming the scan after each match. -/
def subSpaceDigit : Str → Str
  | ' ' :: c :: rest =>
    if c.isDigit then subSpaceDigit rest
    else ' ' :: subSpaceDigit (c :: rest)
  | c :: rest => c :: subSpaceDigit rest
  | [] => []

/-- Helper of `matchEllipsisQuoted`: after the opening apostrophe, does
some nonempty run of `[A-Za-z_, ]` characters get followed by `" ...'"`?
`seen` records whether at least one class character was consumed. -/
def auxEQ : Bool → Str → Bool
  | _, [] => false
  | seen, l@(c :: cs) =>
    (seen && (' ' :: "...".data ++ [quoteChar]).isPrefixOf l) ||
      ((c.isAlpha || c = '_' || c = ',' || c = ' ') && auxEQ true cs)

/-- `re.match(r"'[A-Za-z_, ]+ \.\.\.'", name) is not None`. -/
def matchEllipsisQuoted : Str → Bool
  | c :: rest => c = quoteChar && auxEQ false rest
  | [] => false

/-- Substring test, used for `"..." in name`. -/
def containsSub (p : Str) : Str → Bool
  | [] => p.isPrefixOf []
  | l@(_ :: t) => p.isPrefixOf l || containsSub p t

/-- Helper of `wordRuns`: `cur` is the reversed run of word characters
currently being read. -/
def wordRunsAux (cur : Str) : Str → List Str
  | [] => if cur = [] then [] else [cur.reverse]
  | c :: rest =>
    if isWordChar c then wordRunsAux (c :: cur) rest
    else if cur = [] then wordRunsAux [] rest
    else cur.reverse :: wordRunsAux [] rest

/-- `re.findall(r"([\w]+)", name)`: the maximal runs of word
characters. -/
def wordRuns (l : Str) : List Str := wordRunsAux [] l

/-- Helper of `splitOnSpace`: `cur` is the reversed current field. -/
def splitAux (cur : Str) : Str → List Str
  | [] => [cur.reverse]
  | c :: rest =>
    if c = ' ' then cur.reverse :: splitAux [] rest
    else splitAux (c :: cur) rest

/-- Python `name.split(" ")`: split on every single space, keeping empty
fields (`"".split(" ") == [""]`). -/
def splitOnSpace (l : Str) : List Str := splitAux [] l

/-- The raw-name normalization of `get_cpp_param_name` up to (and
excluding) the reserved-keyword escape: the three regex pattern families
applied in order, then the space-split camel-case join, the non-word
filter and the final `decapitalize`. -/
def derive_raw_name (name : Str) : Except Err Str := do
  let n1 ←
    if name.contains '\n' then
      match searchGroup name with
      | some g => Except.ok (subSpaceDigit g ++ ['s'])
      | none => Except.error Err.attrError
    else Except.ok name
  let n2 :=
    if matchEllipsisQuoted n1 then joinStr [' '] (wordRuns n1) ++ ['s']
    else n1
  let n3 ←
    if containsSub "...".data n2 then
      let toks := (wordRuns n2).map
        (fun t => pyStrip (t.filter (fun c => !c.isDigit)))
      match toks.dedup with
      | [b] => Except.ok (b ++ ['s'])
      | _ => Except.error Err.assertError
    else Except.ok n2
  let n4 := ((splitOnSpace n3).map capitalize).flatten
  let n5 := n4.filter isWordChar
  Except.ok (decapitalize n5)

/-- `get_cpp_param_name` from the source: the kind-name fallback for a
nameless operand, otherwise the raw-name normalization followed by the
reserved-keyword underscore escape. -/
def get_cpp_param_name (op : Operand) : Except Err Str :=
  match op.name with
  | none => .ok (decapitalize op.kind)
  | some name => do
    let n ← derive_raw_name name
    .ok (if n ∈ reserved_cpp_keywords then '_' :: n else n)

/-- A generated parameter: C++ type, identifier, default-value text. -/
structure CppParam where
  type : Str
  name : Str
  default_value : Str
deriving DecidableEq, Repr

/-- `get_cpp_param` from the source. -/
def get_cpp_param (cat : Catalog) (fuel : Nat) (op : Operand) :
    Except Err CppParam := do
  let t ← get_cpp_type cat fuel op
  let n ← get_cpp_param_name op
  .ok { type := t, name := n, default_value := [] }

/-- Decimal digit character for `d < 10`. -/
def digitCh (d : Nat) : Char := Char.ofNat (48 + d)

/-- Fuel-indexed big-endian decimal writer (the fuel `n` itself is
always enough for the digits of `n`). -/
def natToStrAux : Nat → Nat → Str
  | 0, _ => []
  | fuel + 1, n =>
    if n = 0 then [] else natToStrAux fuel (n / 10) ++ [digitCh (n % 10)]

/-- Python `str(n)` for a natural number. -/
def natToStr (n : Nat) : Str :=
  if n = 0 then ['0'] else natToStrAux n n

/-- `is_simple_type` from the source (nested in `get_word_count_code`). -/
def is_simple_type (t : Str) : Bool :=
  !(t == "std::string".data || t == "spvConstant auto".data ||
    "std::optional".data.isPrefixOf t || "std::vector".data.isPrefixOf t ||
    "std::tuple".data.isPrefixOf t)

/-- The fixed word count computed by `get_word_count_code`:
`1 + len(list(filter(is_simple_type, types)))`. -/
def word_count (ps : List CppParam) : Nat :=
  1 + ((ps.map (fun p => p.type)).filter is_simple_type).length

/-- The `countOperandsWord` fragment of `get_word_count_code`: the
comma-join of the non-simple parameters' names, wrapped in the call when
that join is nonempty, the empty string otherwise. -/
def non_simple_types_code (ps : List CppParam) : Str :=
  let names := (ps.filter (fun p => !is_simple_type p.type)).map
    (fun p => p.name)
  let j := joinStr ", ".data names
  if 0 < j.length then
    "countOperandsWord(wordCount,".data ++ j ++ ");".data
  else []

/-- `get_word_count_code` from the source. -/
def get_word_count_code (ps : List CppParam) : Str :=
  "uint16_t wordCount = ".data ++ natToStr (word_count ps) ++
    ";\n    ".data ++ non_simple_types_code ps

/-- `get_instruction_write_code` from the source. -/
def get_instruction_write_code (ps : List CppParam) : Str :=
  "writeWords(".data ++ joinStr ", ".data (ps.map (fun p => p.name)) ++
    ");".data

/-- One renaming sweep of the deduplication pass: every parameter whose
current name equals `d` gets `d` with the running 1-based occurrence
index appended. -/
def renamePass (d : Str) : Nat → List CppParam → List CppParam
  | _, [] => []
  | nr, p :: rest =>
    if p.name = d then
      { p with name := d ++ natToStr nr } :: renamePass d (nr + 1) rest
    else p :: renamePass d nr rest

/-- Helper of `firstOccurrences`. -/
def firstOccAux (seen : List Str) : List Str → List Str
  | [] => []
  | x :: xs =>
    if x ∈ seen then firstOccAux seen xs
    else x :: firstOccAux (x :: seen) xs

/-- The distinct values of a list in first-occurrence order: the key
iteration order of a Python `Counter` built from the list. -/
def firstOccurrences (l : List Str) : List Str := firstOccAux [] l

/-- The deduplication pass of `get_instruction_code` (lines 170-180):
iterate the `Counter` of the original derived names in key order and,
for every name with count above one, sweep the (already partially
renamed) parameter list renaming matching occurrences. -/
def dedup_param_names (ps : List CppParam) : List CppParam :=
  let names := ps.map (fun p => p.name)
  (firstOccurrences names).foldl
    (fun cur d => if 1 < names.count d then renamePass d 1 cur else cur) ps

/-- Does the type start with `std::optional` or `std::vector`? -/
def isOptVec (t : Str) : Bool :=
  "std::optional".data.isPrefixOf t || "std::vector".data.isPrefixOf t

/-- Helper of `assign_default_values`, acting on the reversed list:
assign `" = {}"` while the types are optional/vector, stop at the first
other type and leave the rest untouched. -/
def assignRevAux : List CppParam → List CppParam
  | [] => []
  | p :: rest =>
    if isOptVec p.type then
      { p with default_value := " = \x7b\x7d".data } :: assignRevAux rest
    else p :: rest

/-- The trailing-default pass of `get_instruction_code` (lines
182-186). -/
def assign_default_values (ps : List CppParam) : List CppParam :=
  (assignRevAux ps.reverse).reverse

/-- The operand list of an instruction: the `operands` field when
present, the empty list otherwise (lines 162-165). -/
def instruction_operands (ins : Instruction) : List Operand :=
  match ins.operands with
  | some l => l
  | none => []

/-- The parameter list from which `get_instruction_code` renders the
signature and body: per-operand parameter generation, then the
deduplication pass, then the trailing-default pass. -/
def instruction_params (cat : Catalog) (fuel : Nat) (ins : Instruction) :
    Except Err (List CppParam) := do
  let ps ← (instruction_operands ins).mapM (get_cpp_param cat fuel)
  .ok (assign_default_values (dedup_param_names ps))

/-- Python string `<`: strict lexicographic comparison by code point. -/
def lexLt : Str → Str → Bool
  | [], [] => false
  | [], _ :: _ => true
  | _ :: _, [] => false
  | a :: as_, b :: bs => a < b || (a = b && lexLt as_ bs)

/-- Python string `<=`, the order `sorted` sorts by. -/
def lexLe : Str → Str → Bool
  | [], _ => true
  | _ :: _, [] => false
  | a :: as_, b :: bs => a < b || (a = b && lexLe as_ bs)

/-- Python `sorted(l, key=...)`: a stable sort by the key; stable sorts
agree on all inputs, so insertion sort models Timsort faithfully. -/
def sortByKey (key : α → Str) (l : List α) : List α :=
  l.insertionSort (fun a b => lexLe (key a) (key b) = true)

/-- The sorted instruction list of the top-level output assembly
(line 234). -/
def sorted_instructions (l : List Instruction) : List Instruction :=
  sortByKey (fun i => i.opname) l

/-- The sorted Id-category kind list of `get_spv_ids_types`
(lines 219-221). -/
def sorted_id_operands (oks : List OperandKindInfo) : List OperandKindInfo :=
  sortByKey (fun i => i.kind)
    (oks.filter (fun i => i.category = "Id".data))

/-- `get_spv_ids_types` from the source: one `using` alias per
Id-category kind, sorted by kind name, joined by newlines. -/
def get_spv_ids_types (oks : List OperandKindInfo) : Str :=
  joinStr ['\n']
    ((sorted_id_operands oks).map
      (fun i => "using ".data ++ i.kind ++ " = spv::Id;".data))

/-- Does the string end in a decimal digit? -/
def endsInDigit (l : Str) : Bool :=
  match l.getLast? with
  | some c => c.isDigit
  | none => false

/-- The claim-level classification of C2: a parameter is a simple
fixed-width scalar when its operand has no quantifier and its kind's
category is `Id`, `ValueEnum` or `BitEnum`, or `Literal` with a kind
other than string and context-dependent-number. -/
def semanticSimple (cat : Catalog) (op : Operand) : Bool :=
  op.quantifier = none &&
    match lookupKind cat op.kind with
    | none => false
    | some info =>
      info.category = "Id".data || info.category = "ValueEnum".data ||
      info.category = "BitEnum".data ||
      (info.category = "Literal".data &&
        !(op.kind = "LiteralString".data ||
          op.kind = "LiteralContextDependentNumber".data))

/-- Kind names are identifier-like: every character is a word
character.  This holds of every SPIR-V grammar (kind names are spliced
into C++ type position) and rules out kind strings that collide with the
generator's own type templates such as `std::vector<...>`. -/
abbrev wfKinds (cat : Catalog) : Prop :=
  ∀ info ∈ cat, ∀ c ∈ info.kind, isWordChar c = true

/-- A string with its first letter decapitalized and the rest preserved
verbatim. -/
def lowerFirst (l : Str) : Str :=
  match l with
  | [] => []
  | c :: t => c.toLower :: t

theorem mapM_ok_of_forall₂ {α β : Type} {f : α → Except Err β}
    {l : List α} {l' : List β}
    (h : List.Forall₂ (fun a b => f a = .ok b) l l') : l.mapM f = .ok l' := by
  induction h with
  | nil => rfl
  | cons hab _ ih =>
    rw [List.mapM_cons, hab, ih]
    rfl

theorem forall₂_of_mapM_ok {α β : Type} {f : α → Except Err β}
    {l : List α} {l' : List β} (h : l.mapM f = .ok l') :
    List.Forall₂ (fun a b => f a = .ok b) l l' := by
  induction l generalizing l' with
  | nil =>
    rw [List.mapM_nil] at h
    cases h
    exact List.Forall₂.nil
  | cons a as ih =>
    rw [List.mapM_cons] at h
    cases hfa : f a with
    | error e => rw [hfa] at h; cases h
    | ok b =>
      rw [hfa] at h
      cases hrest : as.mapM f with
      | error e => rw [hrest] at h; cases h
      | ok bs =>
        rw [hrest] at h
        cases h
        exact List.Forall₂.cons hfa (ih hrest)

theorem lookupKind_kind_eq {cat : Catalog} {k : Str} {info : OperandKindInfo}
    (h : lookupKind cat k = some info) : info.kind = k := by
  have := List.find?_some h
  simpa using this

/-- C10: an instruction whose grammar entry has no operands field, or an
empty operand list, yields an empty parameter list, a fixed word count of
exactly 1, no runtime word-count adjustment call, and a final write call
carrying no parameters. -/
theorem no_operands_instruction (cat : Catalog) (fuel : Nat) (opn : Str) :
    instruction_params cat fuel ⟨opn, none⟩ = .ok [] ∧
    instruction_params cat fuel ⟨opn, some []⟩ = .ok [] ∧
    word_count [] = 1 ∧
    non_simple_types_code [] = [] ∧
    get_word_count_code [] = "uint16_t wordCount = 1;\n    ".data ∧
    get_instruction_write_code [] = "writeWords();".data :=
  ⟨rfl, rfl, rfl, rfl, rfl, rfl⟩

/-- C5 counterexample: a nameless operand of the all-uppercase kind ABC
derives the identifier ABC unchanged, not aBC with the first letter
decapitalized as the claim states for every kind-name string. -/
theorem nameless_all_upper_kept :
    get_cpp_param_name ⟨"ABC".data, none, none⟩ = .ok "ABC".data ∧
    "ABC".data ≠ lowerFirst "ABC".data := by
  constructor
  · rfl
  · decide

/-- C5 amended: for a nameless operand whose kind name is not entirely
uppercase (Python str.isupper), the derived parameter name is the kind
name with its first letter decapitalized and otherwise preserved
verbatim; an all-uppercase kind name is returned entirely verbatim. -/
theorem nameless_param_name (k : Str) (h : pyIsUpper k = false) :
    get_cpp_param_name ⟨k, none, none⟩ = .ok (lowerFirst k) := by
  simp [get_cpp_param_name, decapitalize, h, lowerFirst]

/-- C5 witness: the nameless operand of kind ScopeId yields scopeId. -/
theorem nameless_param_name_witness :
    get_cpp_param_name ⟨"ScopeId".data, none, none⟩ = .ok "scopeId".data := by
  rw [nameless_param_name "ScopeId".data (by decide)]
  rfl

/-- C6 counterexample: a nameless operand of kind Class derives the
identifier class without the reserved-word underscore escape, because the
kind-name fallback path returns before the escape is applied. -/
theorem nameless_class_not_escaped :
    get_cpp_param_name ⟨"Class".data, none, none⟩ = .ok "class".data ∧
    "class".data ≠ "_class".data := by
  constructor
  · rfl
  · decide

/-- C6 amended: for every operand that carries a raw name, if the
identifier resulting from name derivation collides with a reserved word
of the target language, the final derived name is that identifier
prefixed with an underscore; nameless operands return the decapitalized
kind name with no reserved-word check. -/
theorem reserved_name_escaped (op : Operand) (nm p : Str)
    (hn : op.name = some nm) (hd : derive_raw_name nm = .ok p)
    (hr : p ∈ reserved_cpp_keywords) :
    get_cpp_param_name op = .ok ('_' :: p) := by
  have h1 : get_cpp_param_name op =
      Except.ok (if p ∈ reserved_cpp_keywords then '_' :: p else p) := by
    simp [get_cpp_param_name, hn, hd]
    rfl
  rw [if_pos hr] at h1
  exact h1

/-- C6 witness: a named operand whose raw name Class derives the
reserved identifier class is escaped to _class. -/
theorem reserved_name_escaped_witness :
    get_cpp_param_name ⟨"x".data, none, some "Class".data⟩ =
      .ok ('_' :: "class".data) :=
  reserved_name_escaped _ "Class".data "class".data rfl (by rfl) (by decide)

@[simp]
theorem except_bind_ok {α β : Type} (a : α) (f : α → Except Err β) :
    (Except.ok a >>= f) = f a := rfl

@[simp]
theorem except_bind_error {α β : Type} (e : Err) (f : α → Except Err β) :
    ((Except.error e : Except Err α) >>= f) = .error e := rfl

theorem get_base_cpp_type_succ (cat : Catalog) (fuel : Nat) :
    get_base_cpp_type cat (fuel + 1) =
      get_base_step cat (get_base_cpp_type cat fuel) := rfl

theorem lookup_of_base_ok {cat : Catalog} {fuel : Nat} {b t : Str}
    (h : get_base_cpp_type cat fuel b = .ok t) :
    ∃ bi, lookupKind cat b = some bi := by
  cases fuel with
  | zero => simp [get_base_cpp_type] at h
  | succ f =>
    rw [get_base_cpp_type_succ] at h
    cases hl : lookupKind cat b with
    | none => rw [get_base_step, hl] at h; cases h
    | some bi => exact ⟨bi, rfl⟩

theorem bases_kind_mapM {cat : Catalog} {fuel : Nat} {bs ts : List Str}
    (hres : List.Forall₂ (fun b t => get_base_cpp_type cat fuel b = .ok t)
      bs ts) :
    (bs.mapM (fun b =>
      match lookupKind cat b with
      | some bi => Except.ok bi.kind
      | none => Except.error (Err.missingKind b)) : Except Err (List Str)) =
        .ok bs := by
  induction hres with
  | nil => rfl
  | cons hab _ ih =>
    obtain ⟨bi, hbi⟩ := lookup_of_base_ok hab
    rw [List.mapM_cons, hbi, ih]
    simp [lookupKind_kind_eq hbi]

theorem get_base_step_composite {cat : Catalog} {rec : Str → Except Err Str}
    {k : Str} {info : OperandKindInfo} {bs : List Str}
    (hl : lookupKind cat k = some info)
    (hc : info.category = "Composite".data)
    (hb : info.bases = some bs) :
    get_base_step cat rec k = (do
      let bkinds ← bs.mapM (fun b =>
        match lookupKind cat b with
        | some bi => Except.ok bi.kind
        | none => Except.error (Err.missingKind b))
      let btypes ← bkinds.mapM rec
      Except.ok ("std::tuple<".data ++ joinStr ", ".data btypes ++
        ">".data)) := by
  simp only [get_base_step, hl]
  rw [hc, hb]
  rw [if_neg (by decide), if_neg (by decide), if_neg (by decide),
    if_neg (by decide), if_pos rfl]

/-- C4: resolving a Composite-category kind whose bases all resolve
(hence are all present in the catalog) yields the fixed-arity tuple type
over the recursively resolved base types in their declared order. -/
theorem composite_resolves_tuple (cat : Catalog) (fuel : Nat) (k : Str)
    (info : OperandKindInfo) (bs ts : List Str)
    (hl : lookupKind cat k = some info)
    (hc : info.category = "Composite".data)
    (hb : info.bases = some bs)
    (hres : List.Forall₂ (fun b t => get_base_cpp_type cat fuel b = .ok t)
      bs ts) :
    get_base_cpp_type cat (fuel + 1) k =
      .ok ("std::tuple<".data ++ joinStr ", ".data ts ++ ">".data) := by
  rw [get_base_cpp_type_succ, get_base_step_composite hl hc hb,
    bases_kind_mapM hres, except_bind_ok, mapM_ok_of_forall₂ hres,
    except_bind_ok]

/-- C4 witness: a composite kind with bases A (an Id kind, resolving to
the alias A) and B (a ValueEnum kind, resolving to the scoped enum
spv::B) resolves to the tuple type over the two, in declared order. -/
theorem composite_resolves_tuple_witness :
    get_base_cpp_type
      [⟨"A".data, "Id".data, none⟩, ⟨"B".data, "ValueEnum".data, none⟩,
       ⟨"C".data, "Composite".data, some ["A".data, "B".data]⟩]
      2 "C".data = .ok "std::tuple<A, spv::B>".data := by
  rw [composite_resolves_tuple _ 1 _
    ⟨"C".data, "Composite".data, some ["A".data, "B".data]⟩
    ["A".data, "B".data] ["A".data, "spv::B".data]
    (by rfl) (by rfl) (by rfl)
    (List.Forall₂.cons (by rfl) (List.Forall₂.cons (by rfl)
      List.Forall₂.nil))]
  rfl

/-- Membership of an error in the unmapped-construct class the claim C7
describes: unknown category, unknown quantifier, or a literal kind
missing from the mapping table. -/
def isUnmappedErr : Err → Bool
  | .unknownCategory _ => true
  | .unknownQuantifier _ => true
  | .unmappedLiteral _ => true
  | _ => false

theorem get_base_step_id {cat : Catalog} {rec : Str → Except Err Str}
    {k : Str} {info : OperandKindInfo}
    (hl : lookupKind cat k = some info) (hc : info.category = "Id".data) :
    get_base_step cat rec k = .ok k := by
  simp only [get_base_step, hl]
  rw [if_pos hc]

theorem get_base_step_literal {cat : Catalog} {rec : Str → Except Err Str}
    {k : Str} {info : OperandKindInfo}
    (hl : lookupKind cat k = some info)
    (hc : info.category = "Literal".data) :
    get_base_step cat rec k =
      (match literal_dict k with
       | some t => Except.ok t
       | none => Except.error (Err.unmappedLiteral k)) := by
  simp only [get_base_step, hl]
  rw [hc]
  rw [if_neg (by decide), if_pos rfl]

theorem get_base_step_value_enum {cat : Catalog}
    {rec : Str → Except Err Str} {k : Str} {info : OperandKindInfo}
    (hl : lookupKind cat k = some info)
    (hc : info.category = "ValueEnum".data) :
    get_base_step cat rec k = .ok ("spv::".data ++ k) := by
  simp only [get_base_step, hl]
  rw [hc]
  rw [if_neg (by decide), if_neg (by decide), if_pos rfl]

theorem get_base_step_bit_enum {cat : Catalog}
    {rec : Str → Except Err Str} {k : Str} {info : OperandKindInfo}
    (hl : lookupKind cat k = some info)
    (hc : info.category = "BitEnum".data) :
    get_base_step cat rec k = .ok ("spv::".data ++ k ++ "Mask".data) := by
  simp only [get_base_step, hl]
  rw [hc]
  rw [if_neg (by decide), if_neg (by decide), if_neg (by decide),
    if_pos rfl]

theorem get_base_step_unknown {cat : Catalog}
    {rec : Str → Except Err Str} {k : Str} {info : OperandKindInfo}
    (hl : lookupKind cat k = some info)
    (h1 : ¬info.category = "Id".data)
    (h2 : ¬info.category = "Literal".data)
    (h3 : ¬info.category = "ValueEnum".data)
    (h4 : ¬info.category = "BitEnum".data)
    (h5 : ¬info.category = "Composite".data) :
    get_base_step cat rec k = .error (.unknownCategory info.category) := by
  simp only [get_base_step, hl]
  rw [if_neg h1, if_neg h2, if_neg h3, if_neg h4, if_neg h5]

theorem quant_error_iff {base : Str} {qo : Option Str} :
    (∃ e, applyQuantifier base qo = .error e ∧ isUnmappedErr e = true) ↔
      (∃ q, qo = some q ∧ q ≠ "?".data ∧ q ≠ "*".data) := by
  cases qo with
  | none => simp [applyQuantifier]
  | some q =>
    by_cases hq1 : q = "?".data
    · simp [applyQuantifier, hq1]
    · by_cases hq2 : q = "*".data
      · simp [applyQuantifier, hq1, hq2]
      · simp [applyQuantifier, hq1, hq2, isUnmappedErr]

/-- C7 amended: for an operand whose kind is present in the catalog and
whose category is not Composite, an unmapped-construct error (unknown
category, unknown quantifier, or unmapped literal kind) is raised iff
the category is none of Id, Literal, ValueEnum, BitEnum, or the
quantifier marker is present but neither question mark nor asterisk, or
the category is Literal and the kind is not in the literal mapping
table; for a Composite operand such errors can additionally surface from
recursively resolving its base kinds. -/
theorem unmapped_error_iff (cat : Catalog) (fuel : Nat) (op : Operand)
    (info : OperandKindInfo) (hl : lookupKind cat op.kind = some info)
    (hnc : info.category ≠ "Composite".data) :
    (∃ e, get_cpp_type cat (fuel + 1) op = .error e ∧
      isUnmappedErr e = true) ↔
      ((info.category ≠ "Id".data ∧ info.category ≠ "Literal".data ∧
        info.category ≠ "ValueEnum".data ∧
        info.category ≠ "BitEnum".data) ∨
       (∃ q, op.quantifier = some q ∧ q ≠ "?".data ∧ q ≠ "*".data) ∨
       (info.category = "Literal".data ∧ literal_dict op.kind = none)) := by
  by_cases h1 : info.category = "Id".data
  · rw [show get_cpp_type cat (fuel + 1) op =
        applyQuantifier op.kind op.quantifier by
      simp only [get_cpp_type, get_base_cpp_type_succ,
        get_base_step_id hl h1, except_bind_ok]]
    rw [quant_error_iff]
    have h2 : info.category ≠ "Literal".data := by rw [h1]; decide
    simp [h1, h2]
  by_cases h2 : info.category = "Literal".data
  · cases hld : literal_dict op.kind with
    | some t =>
      rw [show get_cpp_type cat (fuel + 1) op =
          applyQuantifier t op.quantifier by
        simp only [get_cpp_type, get_base_cpp_type_succ,
          get_base_step_literal hl h2, hld, except_bind_ok]]
      rw [quant_error_iff]
      simp [h1, h2, hld]
    | none =>
      have hres : get_cpp_type cat (fuel + 1) op =
          .error (.unmappedLiteral op.kind) := by
        simp only [get_cpp_type, get_base_cpp_type_succ,
          get_base_step_literal hl h2, hld, except_bind_error]
      rw [hres]
      constructor
      · intro _
        exact Or.inr (Or.inr ⟨h2, rfl⟩)
      · intro _
        exact ⟨.unmappedLiteral op.kind, rfl, rfl⟩
  by_cases h3 : info.category = "ValueEnum".data
  · rw [show get_cpp_type cat (fuel + 1) op =
        applyQuantifier ("spv::".data ++ op.kind) op.quantifier by
      simp only [get_cpp_type, get_base_cpp_type_succ,
        get_base_step_value_enum hl h3, except_bind_ok]]
    rw [quant_error_iff]
    simp [h1, h2, h3]
  by_cases h4 : info.category = "BitEnum".data
  · rw [show get_cpp_type cat (fuel + 1) op =
        applyQuantifier ("spv::".data ++ op.kind ++ "Mask".data)
          op.quantifier by
      simp only [get_cpp_type, get_base_cpp_type_succ,
        get_base_step_bit_enum hl h4, except_bind_ok]]
    rw [quant_error_iff]
    simp [h1, h2, h3, h4]
  · have hres : get_cpp_type cat (fuel + 1) op =
        .error (.unknownCategory info.category) := by
      simp only [get_cpp_type, get_base_cpp_type_succ,
        get_base_step_unknown hl h1 h2 h3 h4 hnc, except_bind_error]
    rw [hres]
    constructor
    · intro _
      exact Or.inl ⟨h1, h2, h3, h4⟩
    · intro _
      exact ⟨.unknownCategory info.category, rfl, rfl⟩

/-- C7 amended witness: an operand of a kind with the unknown category
Weird raises an unmapped-construct error. -/
theorem unmapped_error_iff_witness :
    ∃ e, get_cpp_type [⟨"K".data, "Weird".data, none⟩] 1
      ⟨"K".data, none, none⟩ = .error e ∧ isUnmappedErr e = true :=
  (unmapped_error_iff _ 0 _ ⟨"K".data, "Weird".data, none⟩ (by rfl)
    (by decide)).mpr (Or.inl (by decide))

/-- C7 counterexample: an operand of the Composite kind C, whose single
base kind W has the unknown category Weird, raises an
unmapped-construct error even though the operand's own category is
Composite (allowed), its quantifier is absent, and its category is not
Literal — the claim as stated says no such error is raised here. -/
theorem composite_bad_base_raises :
    (lookupKind
        [⟨"W".data, "Weird".data, none⟩,
         ⟨"C".data, "Composite".data, some ["W".data]⟩]
        "C".data).map (fun i => i.category) = some "Composite".data ∧
    get_cpp_type
      [⟨"W".data, "Weird".data, none⟩,
       ⟨"C".data, "Composite".data, some ["W".data]⟩]
      2 ⟨"C".data, none, none⟩ =
        .error (.unknownCategory "Weird".data) ∧
    isUnmappedErr (.unknownCategory "Weird".data) = true := by
  refine ⟨by rfl, by rfl, rfl⟩

theorem assignRevAux_length (l : List CppParam) :
    (assignRevAux l).length = l.length := by
  induction l with
  | nil => rfl
  | cons p rest ih =>
    by_cases hp : isOptVec p.type = true
    · simp [assignRevAux, hp, ih]
    · simp [assignRevAux, hp]

/-- A parameter with the empty-brace default value assigned. -/
def markDefault (p : CppParam) : CppParam :=
  { p with default_value := " = \x7b\x7d".data }

theorem assign_nil : assign_default_values [] = [] := rfl

theorem assign_snoc_opt (xs : List CppParam) (x : CppParam)
    (hp : isOptVec x.type = true) :
    assign_default_values (xs ++ [x]) =
      assign_default_values xs ++ [markDefault x] := by
  unfold assign_default_values
  rw [List.reverse_append]
  simp [assignRevAux, hp, markDefault]

theorem assign_snoc_not (xs : List CppParam) (x : CppParam)
    (hp : ¬isOptVec x.type = true) :
    assign_default_values (xs ++ [x]) = xs ++ [x] := by
  unfold assign_default_values
  rw [List.reverse_append]
  simp [assignRevAux, hp]

theorem assign_defaults_getElem (ps : List CppParam)
    (h0 : ∀ p ∈ ps, p.default_value = []) (i : Nat) :
    ((assign_default_values ps)[i]?).map (fun p => p.default_value) =
      (ps[i]?).map (fun _ =>
        if (ps.drop i).all (fun q => isOptVec q.type) then " = \x7b\x7d".data
        else []) := by
  induction ps using List.reverseRecOn generalizing i with
  | nil => simp [assign_nil]
  | append_singleton xs x ih =>
    have h0xs : ∀ p ∈ xs, p.default_value = [] := fun p hp =>
      h0 p (List.mem_append_left _ hp)
    by_cases hp : isOptVec x.type = true
    · rw [assign_snoc_opt xs x hp]
      rcases Nat.lt_trichotomy i xs.length with hi | hi | hi
      · have hlen : i < (assign_default_values xs).length := by
          unfold assign_default_values
          rw [List.length_reverse, assignRevAux_length, List.length_reverse]
          exact hi
        rw [List.getElem?_append_left hlen, List.getElem?_append_left hi,
          ih h0xs i]
        rw [List.drop_append_of_le_length (by omega), List.all_append]
        simp [hp]
      · subst hi
        have hlen : (assign_default_values xs).length = xs.length := by
          unfold assign_default_values
          rw [List.length_reverse, assignRevAux_length, List.length_reverse]
        rw [show assign_default_values xs ++ [markDefault x] =
            assign_default_values xs ++ [markDefault x] from rfl]
        rw [← hlen, List.getElem?_concat_length, hlen,
          List.getElem?_concat_length]
        rw [List.drop_append_of_le_length (by omega)]
        simp [markDefault, List.drop_length, hp]
      · have hlen : (assign_default_values xs).length = xs.length := by
          unfold assign_default_values
          rw [List.length_reverse, assignRevAux_length, List.length_reverse]
        rw [List.getElem?_eq_none (by simp [hlen]; omega),
          List.getElem?_eq_none (by simp; omega)]
        rfl
    · rw [assign_snoc_not xs x hp]
      rcases Nat.lt_or_ge i (xs ++ [x]).length with hi | hi
      · have hmem : (xs ++ [x])[i] ∈ xs ++ [x] := List.getElem_mem hi
        rw [List.getElem?_eq_getElem hi]
        have hcond : ((xs ++ [x]).drop i).all
            (fun q => isOptVec q.type) = false := by
          refine Bool.eq_false_iff.mpr fun hall => hp ?_
          have hxmem : x ∈ (xs ++ [x]).drop i := by
            have : (xs ++ [x]).drop i =
                xs.drop i ++ [x] := by
              rw [List.drop_append_of_le_length (by simp at hi; omega)]
            rw [this]
            exact List.mem_append_right _ (by simp)
          exact (List.all_eq_true.mp hall) x hxmem
        rw [hcond]
        simp [h0 _ hmem]
      · rw [List.getElem?_eq_none hi]
        rfl

/-- C3: a parameter of the emitted signature carries the empty-brace
default value exactly when its resolved type and the resolved type of
every later parameter is optional or vector (sequence) — the maximal
trailing run of such parameters, scanned from last to first;
consequently once a parameter has a default value every subsequent
parameter also has one. -/
theorem trailing_defaults (ps : List CppParam)
    (h0 : ∀ p ∈ ps, p.default_value = []) :
    (∀ i, ((assign_default_values ps)[i]?).map (fun p => p.default_value) =
      (ps[i]?).map (fun _ =>
        if (ps.drop i).all (fun q => isOptVec q.type) then " = \x7b\x7d".data
        else [])) ∧
    (∀ (i j : Nat) (pi pj : CppParam), i ≤ j →
      (assign_default_values ps)[i]? = some pi →
      (assign_default_values ps)[j]? = some pj →
      pi.default_value ≠ [] → pj.default_value ≠ []) := by
  refine ⟨assign_defaults_getElem ps h0, ?_⟩
  intro i j pi pj hij hpi hpj hne
  have hmi := assign_defaults_getElem ps h0 i
  have hmj := assign_defaults_getElem ps h0 j
  rw [hpi] at hmi
  rw [hpj] at hmj
  cases hoi : ps[i]? with
  | none => rw [hoi] at hmi; cases hmi
  | some qi =>
    rw [hoi] at hmi
    cases hoj : ps[j]? with
    | none => rw [hoj] at hmj; cases hmj
    | some qj =>
      rw [hoj] at hmj
      simp only [Option.map_some', Option.some.injEq] at hmi hmj
      by_cases hci : (ps.drop i).all (fun q => isOptVec q.type) = true
      · have hcj : (ps.drop j).all (fun q => isOptVec q.type) = true := by
          rw [show j = i + (j - i) from by omega, ← List.drop_drop]
          exact List.all_eq_true.mpr fun q hq =>
            List.all_eq_true.mp hci q (List.mem_of_mem_drop hq)
        rw [hmj, if_pos hcj]
        decide
      · rw [hmi, if_neg hci] at hne
        exact absurd rfl hne

/-- C3 witness: in a two-parameter list whose first type is a plain
scalar and whose second type is a vector, exactly the trailing vector
parameter receives the empty-brace default. -/
theorem trailing_defaults_witness :
    ((assign_default_values
        [⟨"uint32_t".data, "a".data, []⟩,
         ⟨"std::vector<A>".data, "b".data, []⟩])[1]?).map
      (fun p => p.default_value) = some " = \x7b\x7d".data := by
  rw [(trailing_defaults _ (by decide)).1 1]
  decide

theorem char_toNat_ofNat {n : Nat} (h : n < 55296) :
    (Char.ofNat n).toNat = n := by
  rw [Char.ofNat, dif_pos (Or.inl h)]
  rfl

theorem uint32_le_iff {a b : UInt32} : a ≤ b ↔ a.toNat ≤ b.toNat := by
  simp [UInt32.le_def, BitVec.le_def, UInt32.toNat]

theorem uint32_eq_iff {a b : UInt32} : a = b ↔ a.toNat = b.toNat := by
  constructor
  · intro h; rw [h]
  · intro h
    rcases a with ⟨⟨a, ha⟩⟩
    rcases b with ⟨⟨b, hb⟩⟩
    simp [UInt32.toNat, BitVec.toNat] at h
    subst h
    rfl

theorem isUpper_iff {c : Char} :
    c.isUpper = true ↔ 65 ≤ c.toNat ∧ c.toNat ≤ 90 := by
  simp [Char.isUpper, Bool.and_eq_true, decide_eq_true_eq, ge_iff_le,
    uint32_le_iff, Char.toNat]
  norm_num [UInt32.size]

theorem isLower_iff {c : Char} :
    c.isLower = true ↔ 97 ≤ c.toNat ∧ c.toNat ≤ 122 := by
  simp [Char.isLower, Bool.and_eq_true, decide_eq_true_eq, ge_iff_le,
    uint32_le_iff, Char.toNat]
  norm_num [UInt32.size]

theorem isDigit_iff {c : Char} :
    c.isDigit = true ↔ 48 ≤ c.toNat ∧ c.toNat ≤ 57 := by
  simp [Char.isDigit, Bool.and_eq_true, decide_eq_true_eq, ge_iff_le,
    uint32_le_iff, Char.toNat]
  norm_num [UInt32.size]

theorem char_eq_iff_toNat {c d : Char} : c = d ↔ c.toNat = d.toNat := by
  constructor
  · intro h; rw [h]
  · intro h
    exact Char.ext (uint32_eq_iff.mpr h)

theorem isWordChar_iff {c : Char} :
    isWordChar c = true ↔
      (65 ≤ c.toNat ∧ c.toNat ≤ 90) ∨ (97 ≤ c.toNat ∧ c.toNat ≤ 122) ∨
      (48 ≤ c.toNat ∧ c.toNat ≤ 57) ∨ c.toNat = 95 := by
  have h95 : (c = '_') ↔ c.toNat = 95 := by
    rw [char_eq_iff_toNat]
    rfl
  simp [isWordChar, Char.isAlphanum, Char.isAlpha, Bool.or_eq_true,
    isUpper_iff, isLower_iff, isDigit_iff, decide_eq_true_eq, h95]
  tauto

theorem toUpper_eq (c : Char) :
    c.toUpper =
      if 97 ≤ c.toNat ∧ c.toNat ≤ 122 then Char.ofNat (c.toNat - 32)
      else c := rfl

theorem toLower_eq (c : Char) :
    c.toLower =
      if 65 ≤ c.toNat ∧ c.toNat ≤ 90 then Char.ofNat (c.toNat + 32)
      else c := rfl

theorem toLower_toUpper (c : Char) : c.toUpper.toLower = c.toLower := by
  by_cases h : 97 ≤ c.toNat ∧ c.toNat ≤ 122
  · have h32 : (Char.ofNat (c.toNat - 32)).toNat = c.toNat - 32 :=
      char_toNat_ofNat (by omega)
    rw [toUpper_eq, if_pos h, toLower_eq, toLower_eq, h32]
    rw [if_pos (by omega), if_neg (by omega)]
    have harith : c.toNat - 32 + 32 = c.toNat := by omega
    rw [harith, Char.ofNat_toNat]
  · rw [toUpper_eq, if_neg h]

theorem isWordChar_toUpper (c : Char) (h : isWordChar c = true) :
    isWordChar c.toUpper = true := by
  by_cases hl : 97 ≤ c.toNat ∧ c.toNat ≤ 122
  · rw [toUpper_eq, if_pos hl, isWordChar_iff,
      char_toNat_ofNat (by omega)]
    left
    omega
  · rw [toUpper_eq, if_neg hl]
    exact h

theorem word_contains_newline_false (w : Str)
    (hw : ∀ c ∈ w, isWordChar c = true) : w.contains '\n' = false := by
  refine Bool.eq_false_iff.mpr fun hc => ?_
  obtain ⟨a, ha, hbeq⟩ := List.contains_iff_exists_mem_beq.mp hc
  have hne : '\n' = a := eq_of_beq hbeq
  subst hne
  exact absurd (hw _ ha) (by decide)

theorem word_matchEQ_false (w : Str)
    (hw : ∀ c ∈ w, isWordChar c = true) :
    matchEllipsisQuoted w = false := by
  cases w with
  | nil => rfl
  | cons c t =>
    have hq : ¬(c = quoteChar) := fun he => by
      have := hw c (List.mem_cons_self c t)
      rw [he] at this
      exact absurd this (by decide)
    simp [matchEllipsisQuoted, hq]

theorem word_containsSub_dots_false (w : Str)
    (hw : ∀ c ∈ w, isWordChar c = true) :
    containsSub "...".data w = false := by
  induction w with
  | nil => rfl
  | cons c t ih =>
    have hq : ¬('.' = c) := fun he => by
      have := hw c (List.mem_cons_self c t)
      rw [← he] at this
      exact absurd this (by decide)
    have hpf : "...".data.isPrefixOf (c :: t) = false := by
      simp [List.isPrefixOf]
      intro he
      exact absurd he hq
    rw [containsSub, hpf, Bool.false_or]
    exact ih fun d hd => hw d (List.mem_cons_of_mem c hd)

theorem splitAux_no_space (l : Str) (cur : Str)
    (hl : ∀ c ∈ l, ¬(c = ' ')) : splitAux cur l = [cur.reverse ++ l] := by
  induction l generalizing cur with
  | nil => simp [splitAux]
  | cons c t ih =>
    rw [splitAux, if_neg (hl c (List.mem_cons_self c t))]
    rw [ih (c :: cur) fun d hd => hl d (List.mem_cons_of_mem c hd)]
    simp

theorem word_splitOnSpace (w : Str)
    (hw : ∀ c ∈ w, isWordChar c = true) : splitOnSpace w = [w] := by
  rw [splitOnSpace, splitAux_no_space w []
    (fun c hc he => absurd (hw c hc) (by rw [he]; decide))]
  rfl

theorem word_filter_eq_self (w : Str)
    (hw : ∀ c ∈ w, isWordChar c = true) :
    (capitalize w).filter isWordChar = capitalize w := by
  cases w with
  | nil => rfl
  | cons c t =>
    rw [capitalize]
    refine List.filter_eq_self.mpr fun a ha => ?_
    rcases List.mem_cons.mp ha with ha | ha
    · rw [ha]
      exact isWordChar_toUpper c (hw c (List.mem_cons_self c t))
    · exact hw a (List.mem_cons_of_mem c ha)

theorem derive_plain (w : Str) (hw : ∀ c ∈ w, isWordChar c = true) :
    derive_raw_name w = .ok (decapitalize (capitalize w)) := by
  rw [derive_raw_name]
  rw [word_contains_newline_false w hw]
  simp only [Bool.false_eq_true, if_false, except_bind_ok]
  rw [word_matchEQ_false w hw]
  simp only [Bool.false_eq_true, if_false]
  rw [word_containsSub_dots_false w hw]
  simp only [Bool.false_eq_true, if_false, except_bind_ok]
  rw [word_splitOnSpace w hw]
  simp only [List.map_cons, List.map_nil, List.flatten_cons,
    List.flatten_nil, List.append_nil]
  rw [word_filter_eq_self w hw]

/-- C9 amended: a raw operand name that is already a normalized
identifier (word characters only) whose tail contains at least one
lowercase letter and whose leading-decapitalized form does not collide
with a reserved word is returned unchanged except for leading-case
normalization (the first letter decapitalized).  Without a lowercase
letter after the first position the plain-name path instead returns the
name with its first letter capitalized (the capitalize step is undone by
the final decapitalize only when the result is not entirely
uppercase). -/
theorem plain_name_normalized (k : Str) (w : Str)
    (hw : ∀ c ∈ w, isWordChar c = true)
    (hlow : ∃ c ∈ w.tail, c.isLower = true)
    (hres : lowerFirst w ∉ reserved_cpp_keywords) :
    get_cpp_param_name ⟨k, none, some w⟩ = .ok (lowerFirst w) := by
  cases w with
  | nil =>
    obtain ⟨c, hc, -⟩ := hlow
    exact absurd hc (by simp)
  | cons c0 t =>
    have hderive := derive_plain (c0 :: t) hw
    have hcap : capitalize (c0 :: t) = c0.toUpper :: t := rfl
    have hupper : pyIsUpper (c0.toUpper :: t) = false := by
      obtain ⟨c, hc, hcl⟩ := hlow
      refine Bool.eq_false_iff.mpr fun hip => ?_
      have hall := (Bool.and_eq_true _ _).mp hip |>.2
      have := List.all_eq_true.mp hall c (List.mem_cons_of_mem _ hc)
      rw [hcl] at this
      exact absurd this (by decide)
    have hdecap : decapitalize (capitalize (c0 :: t)) =
        lowerFirst (c0 :: t) := by
      rw [hcap, decapitalize, if_neg (by rw [hupper]; simp)]
      rw [lowerFirst, toLower_toUpper]
    rw [get_cpp_param_name]
    simp only [hderive, except_bind_ok, hdecap]
    rw [if_neg hres]

/-- C9 witness: the already-normalized raw name fooBar passes through
the plain-name path unchanged. -/
theorem plain_name_normalized_witness :
    get_cpp_param_name ⟨"K".data, none, some "fooBar".data⟩ =
      .ok "fooBar".data := by
  rw [plain_name_normalized "K".data "fooBar".data (by decide)
    ⟨'o', by decide, by decide⟩ (by decide)]
  rfl

/-- C9 counterexample: the raw name a — a single-character normalized
identifier with no reserved-word collision — is returned as A, with its
letter capitalized, not unchanged as the claim states: the plain-name
path capitalizes every space-separated word and the final decapitalize
leaves the result untouched because A is entirely uppercase. -/
theorem plain_name_counterexample :
    get_cpp_param_name ⟨"K".data, none, some "a".data⟩ = .ok "A".data ∧
    "A".data ≠ lowerFirst "a".data := by
  constructor
  · rfl
  · decide

theorem is_simple_word {k : Str} (hk : ∀ c ∈ k, isWordChar c = true) :
    is_simple_type k = true := by
  have h1 : (k == "std::string".data) = false :=
    beq_eq_false_iff_ne.mpr fun he => by
      subst he
      exact absurd (hk ':' (by decide)) (by decide)
  have h2 : (k == "spvConstant auto".data) = false :=
    beq_eq_false_iff_ne.mpr fun he => by
      subst he
      exact absurd (hk ' ' (by decide)) (by decide)
  have hpre : ∀ p : Str, ':' ∈ p → p.isPrefixOf k = false := fun p hp =>
    Bool.eq_false_iff.mpr fun hb => by
      have hmem : ':' ∈ k := (List.isPrefixOf_iff_prefix.mp hb).subset hp
      exact absurd (hk ':' hmem) (by decide)
  rw [is_simple_type, h1, h2, hpre _ (by decide), hpre _ (by decide),
    hpre _ (by decide)]
  rfl

theorem is_simple_spv (k : Str) :
    is_simple_type ("spv::".data ++ k) = true := rfl

theorem is_simple_spv_mask (k : Str) :
    is_simple_type ("spv::".data ++ k ++ "Mask".data) = true := rfl

theorem is_simple_tuple (r : Str) :
    is_simple_type ("std::tuple<".data ++ r) = false := rfl

theorem is_simple_opt (b : Str) :
    is_simple_type ("std::optional<".data ++ b ++ ">".data) = false := rfl

theorem is_simple_vec (b : Str) :
    is_simple_type ("std::vector<".data ++ b ++ ">".data) = false := rfl

set_option linter.unreachableTactic false in
set_option linter.unusedTactic false in
theorem literal_dict_simple {k v : Str} (h : literal_dict k = some v) :
    is_simple_type v =
      !(k = "LiteralString".data ∨
        k = "LiteralContextDependentNumber".data) := by
  rw [literal_dict] at h
  split_ifs at h with h1 h2 h3 h4 h5 h6 <;>
    first
    | (cases h; subst h1; decide)
    | (cases h; subst h2; decide)
    | (cases h; subst h3; decide)
    | (cases h; subst h4; decide)
    | (cases h; subst h5; decide)
    | (cases h; subst h6; decide)
    | (cases h)

theorem param_ok_parts {cat : Catalog} {fuel : Nat} {op : Operand}
    {p : CppParam} (h : get_cpp_param cat fuel op = .ok p) :
    get_cpp_type cat fuel op = .ok p.type ∧
    get_cpp_param_name op = .ok p.name ∧ p.default_value = [] := by
  cases ht : get_cpp_type cat fuel op with
  | error e => rw [get_cpp_param, ht] at h; cases h
  | ok t =>
    cases hn : get_cpp_param_name op with
    | error e =>
      rw [get_cpp_param, ht, except_bind_ok, hn] at h
      cases h
    | ok n =>
      rw [get_cpp_param, ht, except_bind_ok, hn, except_bind_ok] at h
      cases h
      exact ⟨rfl, rfl, rfl⟩

theorem info_kind_word {cat : Catalog} {k : Str} {info : OperandKindInfo}
    (hwf : wfKinds cat) (hl : lookupKind cat k = some info) :
    ∀ c ∈ k, isWordChar c = true := by
  have hmem : info ∈ cat := by
    have := List.mem_of_find?_eq_some hl
    exact List.mem_reverse.mp this
  have hkind := lookupKind_kind_eq hl
  intro c hc
  exact hwf info hmem c (hkind ▸ hc)

/-- The resolved base type of a non-erroring operand is classified by
`is_simple_type` exactly as the claim C2 classifies the operand:
`Id`/`ValueEnum`/`BitEnum` kinds and literal kinds other than string and
context-dependent-number are simple, composites are not. -/
theorem get_base_step_composite_nobases {cat : Catalog}
    {rec : Str → Except Err Str} {k : Str} {info : OperandKindInfo}
    (hl : lookupKind cat k = some info)
    (hc : info.category = "Composite".data)
    (hbs : info.bases = none) :
    get_base_step cat rec k = .error (.missingBases k) := by
  simp only [get_base_step, hl]
  rw [hc, hbs]
  rw [if_neg (by decide), if_neg (by decide), if_neg (by decide),
    if_neg (by decide), if_pos rfl]

theorem base_simple_correct {cat : Catalog} {fuel : Nat} {k b : Str}
    {info : OperandKindInfo} (hwf : wfKinds cat)
    (hl : lookupKind cat k = some info)
    (hb : get_base_cpp_type cat (fuel + 1) k = .ok b) :
    is_simple_type b =
      (info.category = "Id".data || info.category = "ValueEnum".data ||
       info.category = "BitEnum".data ||
       (info.category = "Literal".data &&
         !(k = "LiteralString".data ∨
           k = "LiteralContextDependentNumber".data))) := by
  rw [get_base_cpp_type_succ] at hb
  by_cases h1 : info.category = "Id".data
  · rw [get_base_step_id hl h1] at hb
    cases hb
    rw [is_simple_word (info_kind_word hwf hl)]
    simp [h1]
  by_cases h2 : info.category = "Literal".data
  · rw [get_base_step_literal hl h2] at hb
    cases hld : literal_dict k with
    | none => rw [hld] at hb; cases hb
    | some v =>
      rw [hld] at hb
      cases hb
      rw [literal_dict_simple hld]
      have hne : info.category ≠ "Id".data := h1
      simp [h2, hne]
  by_cases h3 : info.category = "ValueEnum".data
  · rw [get_base_step_value_enum hl h3] at hb
    cases hb
    rw [is_simple_spv]
    simp [h3]
  by_cases h4 : info.category = "BitEnum".data
  · rw [get_base_step_bit_enum hl h4] at hb
    cases hb
    rw [is_simple_spv_mask]
    simp [h4]
  by_cases h5 : info.category = "Composite".data
  · rcases hbs : info.bases with _ | bs
    · rw [get_base_step_composite_nobases hl h5 hbs] at hb
      cases hb
    · rw [get_base_step_composite hl h5 hbs] at hb
      cases hk1 : bs.mapM (fun b =>
          match lookupKind cat b with
          | some bi => Except.ok bi.kind
          | none => Except.error (Err.missingKind b)) with
      | error e => rw [hk1] at hb; cases hb
      | ok bkinds =>
        rw [hk1, except_bind_ok] at hb
        cases hk2 : bkinds.mapM (get_base_cpp_type cat fuel) with
        | error e => rw [hk2] at hb; cases hb
        | ok btypes =>
          rw [hk2, except_bind_ok] at hb
          cases hb
          rw [show ("std::tuple<".data ++ joinStr ", ".data btypes ++
              ">".data) = "std::tuple<".data ++
              (joinStr ", ".data btypes ++ ">".data) from by
            rw [List.append_assoc]]
          rw [is_simple_tuple]
          simp [h1, h2, h3, h4]
  · rw [get_base_step_unknown hl h1 h2 h3 h4 h5] at hb
    cases hb

/-- The simple-type string test of `get_word_count_code` agrees with the
claim-level semantic classification on every successfully processed
operand of a well-formed catalog. -/
theorem simple_type_correct {cat : Catalog} {fuel : Nat} {op : Operand}
    {t : Str} (hwf : wfKinds cat)
    (ht : get_cpp_type cat (fuel + 1) op = .ok t) :
    is_simple_type t = semanticSimple cat op := by
  cases hb : get_base_cpp_type cat (fuel + 1) op.kind with
  | error e => rw [get_cpp_type, hb, except_bind_error] at ht; cases ht
  | ok base =>
    rw [get_cpp_type, hb, except_bind_ok] at ht
    cases hl : lookupKind cat op.kind with
    | none =>
      rw [get_base_cpp_type_succ, get_base_step, hl] at hb
      cases hb
    | some info =>
      cases hq : op.quantifier with
      | none =>
        rw [hq, applyQuantifier] at ht
        cases ht
        rw [semanticSimple, hl]
        simp only [hq]
        rw [base_simple_correct hwf hl hb]
        simp
      | some q =>
        rw [hq, applyQuantifier] at ht
        by_cases hq1 : q = "?".data
        · rw [if_pos hq1] at ht
          cases ht
          rw [is_simple_opt, semanticSimple, hq]
          simp
        by_cases hq2 : q = "*".data
        · rw [if_neg hq1, if_pos hq2] at ht
          cases ht
          rw [is_simple_vec, semanticSimple, hq]
          simp
        · rw [if_neg hq1, if_neg hq2] at ht
          cases ht

theorem renamePass_map_type (d : Str) (nr : Nat) (l : List CppParam) :
    (renamePass d nr l).map (fun p => p.type) =
      l.map (fun p => p.type) := by
  induction l generalizing nr with
  | nil => rfl
  | cons p rest ih =>
    rw [renamePass]
    by_cases hp : p.name = d
    · rw [if_pos hp]
      simp [ih]
    · rw [if_neg hp]
      simp [ih]

theorem foldl_rename_map_type (ds names : List Str)
    (cur : List CppParam) :
    ((ds.foldl (fun cur d =>
        if 1 < names.count d then renamePass d 1 cur else cur)
      cur).map (fun p => p.type)) = cur.map (fun p => p.type) := by
  induction ds generalizing cur with
  | nil => rfl
  | cons d ds ih =>
    rw [List.foldl_cons]
    by_cases hd : 1 < names.count d
    · rw [if_pos hd, ih, renamePass_map_type]
    · rw [if_neg hd, ih]

theorem dedup_map_type (l : List CppParam) :
    (dedup_param_names l).map (fun p => p.type) =
      l.map (fun p => p.type) := by
  rw [dedup_param_names]
  exact foldl_rename_map_type _ _ _

theorem assignRevAux_map_type (l : List CppParam) :
    (assignRevAux l).map (fun p => p.type) = l.map (fun p => p.type) := by
  induction l with
  | nil => rfl
  | cons p rest ih =>
    rw [assignRevAux]
    by_cases hp : isOptVec p.type = true
    · rw [if_pos hp]
      simp [ih]
    · rw [if_neg hp]

theorem assign_map_type (l : List CppParam) :
    (assign_default_values l).map (fun p => p.type) =
      l.map (fun p => p.type) := by
  rw [assign_default_values, List.map_reverse, assignRevAux_map_type,
    List.map_reverse, List.reverse_reverse]

theorem countP_simple_eq {cat : Catalog} {fuel : Nat}
    (hwf : wfKinds cat) {ops : List Operand} {ps : List CppParam}
    (hf : List.Forall₂
      (fun op p => get_cpp_param cat (fuel + 1) op = .ok p) ops ps)
    (f : Bool → Bool) :
    ps.countP (fun p => f (is_simple_type p.type)) =
      ops.countP (fun op => f (semanticSimple cat op)) := by
  induction hf with
  | nil => rfl
  | cons hop _ ih =>
    rw [List.countP_cons, List.countP_cons, ih]
    obtain ⟨ht, -, -⟩ := param_ok_parts hop
    rw [simple_type_correct hwf ht]

theorem joinStr_eq_nil_iff {sep : Str} {l : List Str}
    (hne : ∀ x ∈ l, x ≠ []) : joinStr sep l = [] ↔ l = [] := by
  cases l with
  | nil => simp [joinStr]
  | cons x xs =>
    cases xs with
    | nil =>
      simp only [joinStr]
      simp [hne x (List.mem_cons_self x [])]
    | cons y ys =>
      simp only [joinStr]
      simp [List.append_eq_nil, hne x (List.mem_cons_self x (y :: ys))]

/-- C2 amended: for every instruction that the generator processes
without error over a well-formed catalog (kind names made of word
characters), the emitted fixed word count equals 1 plus the number of
operands whose resolved type is a simple fixed-width scalar (Id,
ValueEnum, BitEnum, or a Literal other than string and
context-dependent-number, with no quantifier wrapper and not a
composite), and — provided every derived parameter name is nonempty —
the countOperandsWord adjustment fragment is emitted iff at least one
operand is non-simple.  An operand whose derived name is empty can
suppress the call, so the name hypothesis is necessary. -/
theorem word_count_correct (cat : Catalog) (fuel : Nat)
    (ins : Instruction) (ps : List CppParam) (hwf : wfKinds cat)
    (hps : instruction_params cat (fuel + 1) ins = .ok ps)
    (hnames : ∀ p ∈ ps, p.name ≠ []) :
    word_count ps = 1 + (instruction_operands ins).countP
      (fun op => semanticSimple cat op) ∧
    (non_simple_types_code ps ≠ [] ↔
      ∃ op ∈ instruction_operands ins, semanticSimple cat op = false) := by
  cases hmap : (instruction_operands ins).mapM
      (get_cpp_param cat (fuel + 1)) with
  | error e =>
    rw [instruction_params, hmap, except_bind_error] at hps
    cases hps
  | ok ps₀ =>
    rw [instruction_params, hmap, except_bind_ok] at hps
    cases hps
    have hf := forall₂_of_mapM_ok hmap
    have htype : (assign_default_values
        (dedup_param_names ps₀)).map (fun p => p.type) =
        ps₀.map (fun p => p.type) := by
      rw [assign_map_type, dedup_map_type]
    have hcnt : ∀ f : Bool → Bool,
        (assign_default_values (dedup_param_names ps₀)).countP
          (fun p => f (is_simple_type p.type)) =
        (instruction_operands ins).countP
          (fun op => f (semanticSimple cat op)) := by
      intro f
      have h1 : ∀ l : List CppParam,
          l.countP (fun p => f (is_simple_type p.type)) =
            (l.map (fun p => p.type)).countP
              (fun t => f (is_simple_type t)) := by
        intro l
        rw [List.countP_map]
        rfl
      rw [h1, htype, ← h1]
      exact countP_simple_eq hwf hf f
    constructor
    · rw [word_count, ← List.countP_eq_length_filter]
      have h2 : ∀ l : List CppParam,
          (l.map (fun p => p.type)).countP is_simple_type =
            l.countP (fun p => is_simple_type p.type) := by
        intro l
        rw [List.countP_map]
        rfl
      rw [h2]
      exact congrArg (1 + ·) (hcnt (fun b => b))
    · have hnames' : ∀ x ∈ ((assign_default_values
          (dedup_param_names ps₀)).filter
            (fun p => !is_simple_type p.type)).map (fun p => p.name),
          x ≠ [] := by
        intro x hx
        obtain ⟨p, hp, rfl⟩ := List.mem_map.mp hx
        exact hnames p (List.mem_of_mem_filter hp)
      have hkey : non_simple_types_code (assign_default_values
          (dedup_param_names ps₀)) ≠ [] ↔
          0 < (assign_default_values (dedup_param_names ps₀)).countP
            (fun p => !is_simple_type p.type) := by
        rw [non_simple_types_code]
        by_cases hj : 0 < (joinStr ", ".data
            (((assign_default_values (dedup_param_names ps₀)).filter
              (fun p => !is_simple_type p.type)).map
                (fun p => p.name))).length
        · rw [if_pos hj]
          have hfne : ((assign_default_values
              (dedup_param_names ps₀)).filter
                (fun p => !is_simple_type p.type)) ≠ [] := by
            intro hnil
            rw [show (((assign_default_values
                (dedup_param_names ps₀)).filter
                  (fun p => !is_simple_type p.type)).map
                    (fun p => p.name)) = [] from by rw [hnil]; rfl] at hj
            simp [joinStr] at hj
          simp only [ne_eq, List.cons_ne_self]
          constructor
          · intro _
            rw [List.countP_pos_iff]
            obtain ⟨p, hp⟩ := List.exists_mem_of_ne_nil _ hfne
            exact ⟨p, List.mem_of_mem_filter hp,
              (List.mem_filter.mp hp).2⟩
          · intro _
            simp
        · rw [if_neg hj]
          have hj0 : (joinStr ", ".data
              (((assign_default_values (dedup_param_names ps₀)).filter
                (fun p => !is_simple_type p.type)).map
                  (fun p => p.name))) = [] := by
            cases hlen : (joinStr ", ".data
                (((assign_default_values (dedup_param_names ps₀)).filter
                  (fun p => !is_simple_type p.type)).map
                    (fun p => p.name))) with
            | nil => rfl
            | cons c cs => exact absurd (by rw [hlen]; simp) hj
          have hfnil := (joinStr_eq_nil_iff hnames').mp hj0
          have : ((assign_default_values (dedup_param_names ps₀)).filter
              (fun p => !is_simple_type p.type)) = [] :=
            List.map_eq_nil_iff.mp hfnil
          constructor
          · intro h
            exact absurd rfl h
          · intro h
            rw [List.countP_pos_iff] at h
            obtain ⟨p, hp, hps⟩ := h
            have : p ∈ ((assign_default_values
                (dedup_param_names ps₀)).filter
                  (fun p => !is_simple_type p.type)) :=
              List.mem_filter.mpr ⟨hp, hps⟩
            rw [‹((assign_default_values (dedup_param_names ps₀)).filter
              (fun p => !is_simple_type p.type)) = []›] at this
            cases this
      rw [hkey, hcnt (fun b => !b)]
      rw [List.countP_pos_iff]
      constructor
      · intro ⟨op, hop, hsem⟩
        exact ⟨op, hop, by simpa using hsem⟩
      · intro ⟨op, hop, hsem⟩
        exact ⟨op, hop, by simpa using hsem⟩

/-- C2 witness: an instruction with one plain Id operand emits a fixed
word count of 2 and its operand is classified simple. -/
theorem word_count_correct_witness :
    word_count [⟨"IdRef".data, "pointer".data, []⟩] = 1 +
      (instruction_operands ⟨"OpX".data,
        some [⟨"IdRef".data, none, some "Pointer".data⟩]⟩).countP
        (fun op => semanticSimple [⟨"IdRef".data, "Id".data, none⟩] op) :=
  (word_count_correct [⟨"IdRef".data, "Id".data, none⟩] 0
    ⟨"OpX".data, some [⟨"IdRef".data, none, some "Pointer".data⟩]⟩
    [⟨"IdRef".data, "pointer".data, []⟩]
    (by decide) (by decide) (by decide)).1

/-- C2 counterexample: an operand with quantifier asterisk but raw name
consisting of a single hyphen derives an empty parameter name, so the
comma-join of non-simple names is empty and no countOperandsWord call is
emitted even though a non-simple (sequence) parameter exists — the
claimed iff fails. -/
theorem word_count_call_counterexample :
    instruction_params [⟨"IdRef".data, "Id".data, none⟩] 3
        ⟨"OpX".data, some [⟨"IdRef".data, some "*".data, some "-".data⟩]⟩ =
      .ok [⟨"std::vector<IdRef>".data, [], " = \x7b\x7d".data⟩] ∧
    non_simple_types_code
      [⟨"std::vector<IdRef>".data, [], " = \x7b\x7d".data⟩] = [] ∧
    semanticSimple [⟨"IdRef".data, "Id".data, none⟩]
      ⟨"IdRef".data, some "*".data, some "-".data⟩ = false := by
  refine ⟨by decide, by decide, by decide⟩

theorem char_lt_iff {a b : Char} : a < b ↔ a.toNat < b.toNat := by
  rw [Char.lt_def]
  simp only [UInt32.lt_def, BitVec.lt_def]
  rfl

theorem char_trichotomy (a b : Char) : a < b ∨ a = b ∨ b < a := by
  rcases Nat.lt_trichotomy a.toNat b.toNat with h | h | h
  · exact Or.inl (char_lt_iff.mpr h)
  · exact Or.inr (Or.inl (char_eq_iff_toNat.mpr h))
  · exact Or.inr (Or.inr (char_lt_iff.mpr h))

theorem lexLe_cons_iff {a b : Char} {as bs : Str} :
    lexLe (a :: as) (b :: bs) = true ↔
      a < b ∨ (a = b ∧ lexLe as bs = true) := by
  simp [lexLe]

theorem lexLt_cons_iff {a b : Char} {as bs : Str} :
    lexLt (a :: as) (b :: bs) = true ↔
      a < b ∨ (a = b ∧ lexLt as bs = true) := by
  simp [lexLt]

theorem lexLe_nil_left (l : Str) : lexLe [] l = true := by
  cases l <;> rfl

theorem lexLe_cons_nil (a : Char) (as : Str) :
    lexLe (a :: as) [] = false := rfl

theorem lexLe_total : ∀ x y : Str, lexLe x y = true ∨ lexLe y x = true
  | [], y => Or.inl (lexLe_nil_left y)
  | _ :: _, [] => Or.inr (lexLe_nil_left _)
  | a :: as, b :: bs => by
    rcases char_trichotomy a b with h | h | h
    · exact Or.inl (lexLe_cons_iff.mpr (Or.inl h))
    · subst h
      rcases lexLe_total as bs with h | h
      · exact Or.inl (lexLe_cons_iff.mpr (Or.inr ⟨rfl, h⟩))
      · exact Or.inr (lexLe_cons_iff.mpr (Or.inr ⟨rfl, h⟩))
    · exact Or.inr (lexLe_cons_iff.mpr (Or.inl h))

theorem lexLe_trans : ∀ {x y z : Str},
    lexLe x y = true → lexLe y z = true → lexLe x z = true
  | [], y, z, _, _ => lexLe_nil_left z
  | _ :: _, [], _, hxy, _ => by rw [lexLe_cons_nil] at hxy; cases hxy
  | _ :: _, _ :: _, [], _, hyz => by rw [lexLe_cons_nil] at hyz; cases hyz
  | a :: as, b :: bs, c :: cs, hxy, hyz => by
    rcases lexLe_cons_iff.mp hxy with h1 | ⟨h1, h1'⟩ <;>
      rcases lexLe_cons_iff.mp hyz with h2 | ⟨h2, h2'⟩
    · exact lexLe_cons_iff.mpr (Or.inl (Char.lt_trans h1 h2))
    · subst h2
      exact lexLe_cons_iff.mpr (Or.inl h1)
    · subst h1
      exact lexLe_cons_iff.mpr (Or.inl h2)
    · subst h1
      subst h2
      exact lexLe_cons_iff.mpr (Or.inr ⟨rfl, lexLe_trans h1' h2'⟩)

theorem lexLe_antisymm : ∀ {x y : Str},
    lexLe x y = true → lexLe y x = true → x = y
  | [], [], _, _ => rfl
  | [], _ :: _, _, hyx => by rw [lexLe_cons_nil] at hyx; cases hyx
  | _ :: _, [], hxy, _ => by rw [lexLe_cons_nil] at hxy; cases hxy
  | a :: as, b :: bs, hxy, hyx => by
    rcases lexLe_cons_iff.mp hxy with h1 | ⟨h1, h1'⟩ <;>
      rcases lexLe_cons_iff.mp hyx with h2 | ⟨h2, h2'⟩
    · exact absurd h2 (Char.lt_asymm h1)
    · subst h2
      exact absurd h1 (by simp [char_lt_iff])
    · subst h1
      exact absurd h2 (by simp [char_lt_iff])
    · subst h1
      rw [lexLe_antisymm h1' h2']

theorem lexLt_of_le_of_ne : ∀ {x y : Str},
    lexLe x y = true → x ≠ y → lexLt x y = true
  | [], [], _, hne => absurd rfl hne
  | [], _ :: _, _, _ => rfl
  | _ :: _, [], hxy, _ => by rw [lexLe_cons_nil] at hxy; cases hxy
  | a :: as, b :: bs, hxy, hne => by
    rcases lexLe_cons_iff.mp hxy with h1 | ⟨h1, h1'⟩
    · exact lexLt_cons_iff.mpr (Or.inl h1)
    · subst h1
      have hne' : as ≠ bs := fun he => hne (by rw [he])
      exact lexLt_cons_iff.mpr (Or.inr ⟨rfl, lexLt_of_le_of_ne h1' hne'⟩)

theorem lexLt_asymm : ∀ {x y : Str},
    lexLt x y = true → lexLt y x = true → False
  | [], y, hxy, hyx => by
    cases y with
    | nil => cases hxy
    | cons b bs => cases hyx
  | _ :: _, [], hxy, _ => by cases hxy
  | a :: as, b :: bs, hxy, hyx => by
    rcases lexLt_cons_iff.mp hxy with h1 | ⟨h1, h1'⟩ <;>
      rcases lexLt_cons_iff.mp hyx with h2 | ⟨h2, h2'⟩
    · exact absurd h2 (Char.lt_asymm h1)
    · subst h2
      exact absurd h1 (by simp [char_lt_iff])
    · subst h1
      exact absurd h2 (by simp [char_lt_iff])
    · subst h1
      exact lexLt_asymm h1' h2'

theorem sortByKey_perm {α : Type} (key : α → Str) (l : List α) :
    (sortByKey key l).Perm l :=
  List.perm_insertionSort _ l

theorem sortByKey_sorted {α : Type} (key : α → Str) (l : List α) :
    List.Sorted (fun a b => lexLe (key a) (key b) = true)
      (sortByKey key l) := by
  haveI : IsTotal α (fun a b => lexLe (key a) (key b) = true) :=
    ⟨fun a b => lexLe_total (key a) (key b)⟩
  haveI : IsTrans α (fun a b => lexLe (key a) (key b) = true) :=
    ⟨fun _ _ _ => lexLe_trans⟩
  exact List.sorted_insertionSort _ l

theorem sortByKey_pairwise_lt {α : Type} (key : α → Str) (l : List α)
    (h : (l.map key).Nodup) :
    List.Pairwise (fun a b => lexLt (key a) (key b) = true)
      (sortByKey key l) := by
  have hs := sortByKey_sorted key l
  have hperm := sortByKey_perm key l
  have hnod : ((sortByKey key l).map key).Nodup :=
    ((hperm.map key).nodup_iff).mpr h
  have hne : List.Pairwise (fun a b => key a ≠ key b) (sortByKey key l) :=
    List.pairwise_map.mp hnod
  have hand := List.Pairwise.and hs hne
  exact hand.imp fun hab =>
    lexLt_of_le_of_ne hab.1 hab.2

theorem sortByKey_eq_of_perm {α : Type} (key : α → Str) {l₁ l₂ : List α}
    (hp : l₁.Perm l₂) (h : (l₂.map key).Nodup) :
    sortByKey key l₁ = sortByKey key l₂ := by
  haveI : IsAntisymm α
      (fun a b => lexLt (key a) (key b) = true ∨ a = b) := by
    refine ⟨fun a b hab hba => ?_⟩
    rcases hab with hab | hab
    · rcases hba with hba | hba
      · exact (lexLt_asymm hab hba).elim
      · exact hba.symm
    · exact hab
  have h1 : (l₁.map key).Nodup := ((hp.map key).nodup_iff).mpr h
  have hs₁ : List.Pairwise
      (fun a b => lexLt (key a) (key b) = true ∨ a = b)
      (sortByKey key l₁) :=
    (sortByKey_pairwise_lt key l₁ h1).imp (fun hab => Or.inl hab)
  have hs₂ : List.Pairwise
      (fun a b => lexLt (key a) (key b) = true ∨ a = b)
      (sortByKey key l₂) :=
    (sortByKey_pairwise_lt key l₂ h).imp (fun hab => Or.inl hab)
  exact List.eq_of_perm_of_sorted
    ((sortByKey_perm key l₁).trans (hp.trans (sortByKey_perm key l₂).symm))
    hs₁ hs₂

/-- C8: for every grammar document with distinct opnames and distinct
Id-category kind names, the emitted builder functions appear in strict
lexicographic order of opname, the emitted Id-alias list appears in
strict lexicographic order of kind name, and both orders are independent
of the order of entries in the input document (any permutation of the
input yields the same sorted lists). -/
theorem output_sorted (instrs : List Instruction)
    (oks : List OperandKindInfo)
    (hI : (instrs.map (fun i => i.opname)).Nodup)
    (hK : ((oks.filter (fun i => i.category = "Id".data)).map
      (fun i => i.kind)).Nodup) :
    List.Chain' (fun a b => lexLt a.opname b.opname = true)
      (sorted_instructions instrs) ∧
    List.Chain' (fun a b => lexLt a.kind b.kind = true)
      (sorted_id_operands oks) ∧
    (∀ instrs' : List Instruction, instrs'.Perm instrs →
      sorted_instructions instrs' = sorted_instructions instrs) ∧
    (∀ oks' : List OperandKindInfo, oks'.Perm oks →
      sorted_id_operands oks' = sorted_id_operands oks) := by
  refine ⟨?_, ?_, ?_, ?_⟩
  · exact (sortByKey_pairwise_lt _ instrs hI).chain'
  · exact (sortByKey_pairwise_lt _ _ hK).chain'
  · intro instrs' hperm
    exact sortByKey_eq_of_perm _ hperm hI
  · intro oks' hperm
    exact sortByKey_eq_of_perm _ (hperm.filter _) hK

/-- C8 witness: a two-instruction document in reverse alphabetical
order with one Id kind sorts into strict opname order. -/
theorem output_sorted_witness :
    List.Chain' (fun a b => lexLt a.opname b.opname = true)
      (sorted_instructions
        [⟨"OpB".data, none⟩, ⟨"OpA".data, none⟩]) ∧
    List.Chain' (fun a b => lexLt a.kind b.kind = true)
      (sorted_id_operands
        [⟨"IdRef".data, "Id".data, none⟩,
         ⟨"IdResult".data, "Id".data, none⟩]) :=
  ⟨(output_sorted [⟨"OpB".data, none⟩, ⟨"OpA".data, none⟩]
      [⟨"IdRef".data, "Id".data, none⟩,
       ⟨"IdResult".data, "Id".data, none⟩]
      (by decide) (by decide)).1,
   (output_sorted [⟨"OpB".data, none⟩, ⟨"OpA".data, none⟩]
      [⟨"IdRef".data, "Id".data, none⟩,
       ⟨"IdResult".data, "Id".data, none⟩]
      (by decide) (by decide)).2.1⟩

theorem natToStrAux_eq_digits :
    ∀ (f n : Nat), n ≤ f →
      natToStrAux f n = (Nat.digits 10 n).reverse.map digitCh := by
  intro f
  induction f with
  | zero =>
    intro n hn
    interval_cases n
    simp [natToStrAux]
  | succ f ih =>
    intro n hn
    by_cases h0 : n = 0
    · subst h0
      simp [natToStrAux]
    · rw [natToStrAux, if_neg h0]
      rw [ih (n / 10) (by
        have h1 : n / 10 < n := Nat.div_lt_self (Nat.pos_of_ne_zero h0)
          (by norm_num)
        omega)]
      rw [Nat.digits_def' (by norm_num : (1:ℕ) < 10)
        (Nat.pos_of_ne_zero h0)]
      rw [List.reverse_cons, List.map_append]
      rfl

theorem natToStr_eq {n : Nat} (h : n ≠ 0) :
    natToStr n = (Nat.digits 10 n).reverse.map digitCh := by
  rw [natToStr, if_neg h]
  exact natToStrAux_eq_digits n n (Nat.le_refl n)

theorem natToStr_ne_nil {n : Nat} (h : 0 < n) : natToStr n ≠ [] := by
  rw [natToStr_eq (by omega)]
  simp [Nat.digits_ne_nil_iff_ne_zero.mpr (by omega : n ≠ 0)]

theorem digitCh_toNat {d : Nat} (h : d < 10) : (digitCh d).toNat = 48 + d :=
  char_toNat_ofNat (by omega)

theorem natToStr_all_digit {n : Nat} (hn : 0 < n) :
    ∀ c ∈ natToStr n, c.isDigit = true := by
  rw [natToStr_eq (by omega)]
  intro c hc
  obtain ⟨d, hd, rfl⟩ := List.mem_map.mp hc
  have hd10 : d < 10 := Nat.digits_lt_base (by norm_num)
    (List.mem_reverse.mp hd)
  rw [isDigit_iff, digitCh_toNat hd10]
  omega

theorem map_digitCh_inj : ∀ {l1 l2 : List Nat},
    (∀ d ∈ l1, d < 10) → (∀ d ∈ l2, d < 10) →
    l1.map digitCh = l2.map digitCh → l1 = l2
  | [], [], _, _, _ => rfl
  | [], _ :: _, _, _, h => by cases h
  | _ :: _, [], _, _, h => by cases h
  | d1 :: t1, d2 :: t2, h1, h2, h => by
    rw [List.map_cons, List.map_cons] at h
    have hh := List.head_eq_of_cons_eq h
    have htl := List.tail_eq_of_cons_eq h
    have hd1 : d1 < 10 := h1 d1 (List.mem_cons_self _ _)
    have hd2 : d2 < 10 := h2 d2 (List.mem_cons_self _ _)
    have : (48 : Nat) + d1 = 48 + d2 := by
      rw [← digitCh_toNat hd1, ← digitCh_toNat hd2, hh]
    have heq : d1 = d2 := by omega
    subst heq
    rw [map_digitCh_inj (fun d hd => h1 d (List.mem_cons_of_mem _ hd))
      (fun d hd => h2 d (List.mem_cons_of_mem _ hd)) htl]

theorem natToStr_inj {a b : Nat} (ha : 0 < a) (hb : 0 < b)
    (h : natToStr a = natToStr b) : a = b := by
  rw [natToStr_eq (by omega), natToStr_eq (by omega)] at h
  have hdig := map_digitCh_inj
    (fun d hd => Nat.digits_lt_base (by norm_num) (List.mem_reverse.mp hd))
    (fun d hd => Nat.digits_lt_base (by norm_num) (List.mem_reverse.mp hd))
    h
  have := List.reverse_injective hdig
  calc a = Nat.ofDigits 10 (Nat.digits 10 a) :=
        (Nat.ofDigits_digits 10 a).symm
    _ = Nat.ofDigits 10 (Nat.digits 10 b) := by rw [this]
    _ = b := Nat.ofDigits_digits 10 b

theorem endsInDigit_append_natToStr (x : Str) {k : Nat} (hk : 0 < k) :
    endsInDigit (x ++ natToStr k) = true := by
  rw [endsInDigit, List.getLast?_append]
  cases hlast : (natToStr k).getLast? with
  | none =>
    exact absurd (List.getLast?_eq_none_iff.mp hlast) (natToStr_ne_nil hk)
  | some c =>
    have hc : c ∈ natToStr k := List.mem_of_getLast?_eq_some hlast
    simp only [Option.or_some]
    exact natToStr_all_digit hk c hc

/-- Head of a reversed no-trailing-digit string is not a digit. -/
theorem headNotDigit_of_endsInDigit_false {l : Str}
    (h : endsInDigit l = false) :
    ∀ c, l.reverse.head? = some c → c.isDigit = false := by
  intro c hc
  rw [List.head?_reverse] at hc
  rw [endsInDigit, hc] at h
  exact h

theorem digit_prefix_cancel : ∀ {a x b y : Str},
    (∀ c ∈ a, c.isDigit = true) → (∀ c ∈ b, c.isDigit = true) →
    (∀ c, x.head? = some c → c.isDigit = false) →
    (∀ c, y.head? = some c → c.isDigit = false) →
    a ++ x = b ++ y → a = b ∧ x = y
  | [], x, [], y, _, _, _, _, h => ⟨rfl, h⟩
  | [], x, e :: bs, y, _, hb, hx, _, h => by
    rw [List.nil_append] at h
    subst h
    have := hx e rfl
    rw [hb e (List.mem_cons_self _ _)] at this
    cases this
  | c :: as, x, [], y, ha, _, _, hy, h => by
    rw [List.nil_append] at h
    have := hy c (by rw [← h]; rfl)
    rw [ha c (List.mem_cons_self _ _)] at this
    cases this
  | c :: as, x, e :: bs, y, ha, hb, hx, hy, h => by
    rw [List.cons_append, List.cons_append] at h
    have hh := List.head_eq_of_cons_eq h
    have htl := List.tail_eq_of_cons_eq h
    obtain ⟨h1, h2⟩ := digit_prefix_cancel
      (fun d hd => ha d (List.mem_cons_of_mem _ hd))
      (fun d hd => hb d (List.mem_cons_of_mem _ hd)) hx hy htl
    subst hh
    exact ⟨by rw [h1], h2⟩

/-- Appending distinct positive decimal indices to names with no
trailing digit is injective in both components. -/
theorem append_natToStr_inj {n m : Str} {i j : Nat}
    (hn : endsInDigit n = false) (hm : endsInDigit m = false)
    (hi : 0 < i) (hj : 0 < j)
    (h : n ++ natToStr i = m ++ natToStr j) : n = m ∧ i = j := by
  have hrev : (natToStr i).reverse ++ n.reverse =
      (natToStr j).reverse ++ m.reverse := by
    rw [← List.reverse_append, ← List.reverse_append, h]
  obtain ⟨h1, h2⟩ := digit_prefix_cancel
    (fun c hc => natToStr_all_digit hi c (List.mem_reverse.mp hc))
    (fun c hc => natToStr_all_digit hj c (List.mem_reverse.mp hc))
    (headNotDigit_of_endsInDigit_false hn)
    (headNotDigit_of_endsInDigit_false hm) hrev
  have hs : natToStr i = natToStr j := List.reverse_injective h1
  have hnm : n = m := List.reverse_injective h2
  exact ⟨hnm, natToStr_inj hi hj hs⟩

/-- Name-level twin of `renamePass`, used to reason about the
deduplication pass through the parameter names alone. -/
def renameNames (d : Str) : Nat → List Str → List Str
  | _, [] => []
  | nr, x :: xs =>
    if x = d then (d ++ natToStr nr) :: renameNames d (nr + 1) xs
    else x :: renameNames d nr xs

/-- The deduplication pass acting on the list of derived names. -/
def dedupNames (names : List Str) : List Str :=
  (firstOccurrences names).foldl
    (fun cur d => if 1 < names.count d then renameNames d 1 cur else cur)
    names

theorem map_name_renamePass (d : Str) :
    ∀ (nr : Nat) (l : List CppParam),
    (renamePass d nr l).map (fun p => p.name) =
      renameNames d nr (l.map (fun p => p.name)) := by
  intro nr l
  induction l generalizing nr with
  | nil => rfl
  | cons p rest ih =>
    rw [renamePass, List.map_cons, renameNames]
    by_cases hp : p.name = d
    · rw [if_pos hp, if_pos hp, List.map_cons, ih]
    · rw [if_neg hp, if_neg hp, List.map_cons, ih]

theorem map_name_foldl (names : List Str) :
    ∀ (ds : List Str) (cur : List CppParam),
    ((ds.foldl (fun cur d =>
        if 1 < names.count d then renamePass d 1 cur else cur)
      cur).map (fun p => p.name)) =
      ds.foldl (fun cur d =>
        if 1 < names.count d then renameNames d 1 cur else cur)
        (cur.map (fun p => p.name)) := by
  intro ds
  induction ds with
  | nil => intro cur; rfl
  | cons d ds ih =>
    intro cur
    rw [List.foldl_cons, List.foldl_cons]
    by_cases hd : 1 < names.count d
    · rw [if_pos hd, if_pos hd, ih, map_name_renamePass]
    · rw [if_neg hd, if_neg hd, ih]

theorem map_name_dedup (ps : List CppParam) :
    (dedup_param_names ps).map (fun p => p.name) =
      dedupNames (ps.map (fun p => p.name)) := by
  rw [dedup_param_names, dedupNames, map_name_foldl]

theorem mem_firstOccAux : ∀ (l seen : List Str) (x : Str),
    x ∈ firstOccAux seen l ↔ (x ∈ l ∧ x ∉ seen) := by
  intro l
  induction l with
  | nil => intro seen x; simp [firstOccAux]
  | cons y ys ih =>
    intro seen x
    rw [firstOccAux]
    by_cases hy : y ∈ seen
    · rw [if_pos hy, ih]
      constructor
      · rintro ⟨hx, hs⟩
        exact ⟨List.mem_cons_of_mem _ hx, hs⟩
      · rintro ⟨hx, hs⟩
        rcases List.mem_cons.mp hx with rfl | hx
        · exact absurd hy hs
        · exact ⟨hx, hs⟩
    · rw [if_neg hy]
      constructor
      · intro hx
        rcases List.mem_cons.mp hx with rfl | hx
        · exact ⟨List.mem_cons_self _ _, hy⟩
        · obtain ⟨h1, h2⟩ := (ih _ _).mp hx
          exact ⟨List.mem_cons_of_mem _ h1,
            fun hs => h2 (List.mem_cons_of_mem _ hs)⟩
      · rintro ⟨hx, hs⟩
        rcases List.mem_cons.mp hx with rfl | hx
        · exact List.mem_cons_self _ _
        · by_cases hxy : x = y
          · subst hxy
            exact List.mem_cons_self _ _
          · refine List.mem_cons_of_mem _ ((ih _ _).mpr ⟨hx, ?_⟩)
            intro hmem
            rcases List.mem_cons.mp hmem with h | h
            · exact hxy h
            · exact hs h

theorem firstOccAux_nodup : ∀ (l seen : List Str),
    (firstOccAux seen l).Nodup := by
  intro l
  induction l with
  | nil => intro seen; exact List.nodup_nil
  | cons y ys ih =>
    intro seen
    rw [firstOccAux]
    by_cases hy : y ∈ seen
    · rw [if_pos hy]
      exact ih seen
    · rw [if_neg hy]
      refine List.nodup_cons.mpr ⟨?_, ih _⟩
      intro hmem
      exact ((mem_firstOccAux ys (y :: seen) y).mp hmem).2
        (List.mem_cons_self _ _)

theorem mem_firstOccurrences {names : List Str} {x : Str} :
    x ∈ firstOccurrences names ↔ x ∈ names := by
  rw [firstOccurrences, mem_firstOccAux]
  simp

theorem firstOccurrences_nodup (names : List Str) :
    (firstOccurrences names).Nodup :=
  firstOccAux_nodup names []

theorem renameNames_length (d : Str) :
    ∀ (nr : Nat) (l : List Str), (renameNames d nr l).length = l.length := by
  intro nr l
  induction l generalizing nr with
  | nil => rfl
  | cons x xs ih =>
    rw [renameNames]
    by_cases hx : x = d
    · rw [if_pos hx]
      simp [ih]
    · rw [if_neg hx]
      simp [ih]

theorem renameNames_getElem (d : Str) :
    ∀ (cur orig : List Str) (nr i : Nat),
    cur.length = orig.length →
    (∀ j : Nat, cur[j]? = some d ↔ orig[j]? = some d) →
    (renameNames d nr cur)[i]? =
      if orig[i]? = some d
      then some (d ++ natToStr (nr + (orig.take i).count d))
      else cur[i]? := by
  intro cur
  induction cur with
  | nil =>
    intro orig nr i hlen hmatch
    have horig : orig = [] := List.length_eq_zero.mp hlen.symm
    subst horig
    rw [if_neg (by simp)]
    rfl
  | cons c cs ih =>
    intro orig nr i hlen hmatch
    cases orig with
    | nil => simp at hlen
    | cons o os =>
      have hlen' : cs.length = os.length := by simpa using hlen
      have hmatch' : ∀ j : Nat, cs[j]? = some d ↔ os[j]? = some d :=
        fun j => by
        have := hmatch (j + 1)
        simpa using this
      have hhead : (c = d) ↔ (o = d) := by
        have := hmatch 0
        simpa using this
      rw [renameNames]
      by_cases hc : c = d
      · have ho : o = d := hhead.mp hc
        rw [if_pos hc]
        cases i with
        | zero =>
          rw [if_pos (by rw [List.getElem?_cons_zero, ho])]
          simp
        | succ i =>
          rw [List.getElem?_cons_succ, ih os (nr + 1) i hlen' hmatch',
            List.getElem?_cons_succ, List.take_succ_cons]
          by_cases hos : os[i]? = some d
          · rw [if_pos hos, if_pos hos]
            have hcnt : (o :: os.take i).count d =
                (os.take i).count d + 1 := by
              rw [List.count_cons]
              simp [ho]
            rw [hcnt]
            have harith : nr + 1 + (os.take i).count d =
                nr + ((os.take i).count d + 1) := by omega
            rw [harith]
          · rw [if_neg hos, if_neg hos]
            simp
      · have ho : ¬(o = d) := fun h => hc (hhead.mpr h)
        rw [if_neg hc]
        cases i with
        | zero =>
          rw [if_neg (by rw [List.getElem?_cons_zero]; simp [ho])]
          simp
        | succ i =>
          rw [List.getElem?_cons_succ, ih os nr i hlen' hmatch',
            List.getElem?_cons_succ, List.take_succ_cons]
          have hcnt : (o :: os.take i).count d = (os.take i).count d := by
            rw [List.count_cons]
            simp [ho]
          rw [hcnt]
          simp

theorem fold_invariant (names : List Str)
    (H : ∀ n ∈ names, endsInDigit n = false) :
    ∀ (ds P cur : List Str),
    ds.Nodup → (∀ d ∈ ds, d ∈ names) → (∀ d ∈ ds, d ∉ P) →
    cur.length = names.length →
    (∀ (i : Nat) (x : Str), names[i]? = some x →
      cur[i]? = some (if x ∈ P ∧ 1 < names.count x
        then x ++ natToStr (1 + (names.take i).count x) else x)) →
    ((ds.foldl (fun cur d =>
        if 1 < names.count d then renameNames d 1 cur else cur)
      cur).length = names.length) ∧
    (∀ (i : Nat) (x : Str), names[i]? = some x →
      (ds.foldl (fun cur d =>
        if 1 < names.count d then renameNames d 1 cur else cur)
        cur)[i]? = some (if (x ∈ P ∨ x ∈ ds) ∧ 1 < names.count x
        then x ++ natToStr (1 + (names.take i).count x) else x)) := by
  intro ds
  induction ds with
  | nil =>
    intro P cur _ _ _ hlen hinv
    rw [List.foldl_nil]
    refine ⟨hlen, fun i x hx => ?_⟩
    rw [hinv i x hx]
    simp
  | cons d ds ih =>
    intro P cur hnodup hmem hnotP hlen hinv
    rw [List.foldl_cons]
    have hd_names : d ∈ names := hmem d (List.mem_cons_self _ _)
    have hd_notP : d ∉ P := hnotP d (List.mem_cons_self _ _)
    have hds_nodup : ds.Nodup := List.Nodup.of_cons hnodup
    have hd_nds : d ∉ ds := (List.nodup_cons.mp hnodup).1
    have hds_mem : ∀ d' ∈ ds, d' ∈ names := fun d' hd' =>
      hmem d' (List.mem_cons_of_mem _ hd')
    have hiff : ∀ x : Str,
        ((x ∈ (d :: P) ∨ x ∈ ds) ∧ 1 < names.count x) ↔
        ((x ∈ P ∨ x ∈ (d :: ds)) ∧ 1 < names.count x) := fun x => by
      have : (x ∈ (d :: P) ∨ x ∈ ds) ↔ (x ∈ P ∨ x ∈ (d :: ds)) := by
        simp only [List.mem_cons]
        tauto
      rw [this]
    have hds_notP' : ∀ d' ∈ ds, d' ∉ (d :: P) := by
      intro d' hd' hmem'
      rcases List.mem_cons.mp hmem' with h | h
      · exact hd_nds (h ▸ hd')
      · exact hnotP d' (List.mem_cons_of_mem _ hd') h
    by_cases hcnt : 1 < names.count d
    · rw [if_pos hcnt]
      have hmatch : ∀ j : Nat, cur[j]? = some d ↔ names[j]? = some d := by
        intro j
        constructor
        · intro hj
          have hj_lt : j < cur.length := by
            by_contra hge
            rw [List.getElem?_eq_none (by omega)] at hj
            cases hj
          have hj_names : j < names.length := by rw [← hlen]; exact hj_lt
          cases hnx : names[j]? with
          | none =>
            rw [List.getElem?_eq_none_iff] at hnx
            omega
          | some x =>
            rw [hinv j x hnx] at hj
            have hj' := Option.some.inj hj
            by_cases hcond : x ∈ P ∧ 1 < names.count x
            · rw [if_pos hcond] at hj'
              have hd_end : endsInDigit d = false := H d hd_names
              rw [← hj'] at hd_end
              rw [endsInDigit_append_natToStr x
                (by omega : 0 < 1 + (names.take j).count x)] at hd_end
              cases hd_end
            · rw [if_neg hcond] at hj'
              rw [hj']
        · intro hj
          have := hinv j d hj
          rw [if_neg (fun hcond => hd_notP hcond.1)] at this
          exact this
      have hinv' : ∀ (i : Nat) (x : Str), names[i]? = some x →
          (renameNames d 1 cur)[i]? =
            some (if x ∈ (d :: P) ∧ 1 < names.count x
              then x ++ natToStr (1 + (names.take i).count x) else x) := by
        intro i x hx
        rw [renameNames_getElem d cur names 1 i hlen hmatch]
        by_cases hxd : x = d
        · subst hxd
          rw [if_pos hx, if_pos ⟨List.mem_cons_self _ _, hcnt⟩]
        · rw [if_neg (by
            rw [hx]
            exact fun h => hxd (Option.some.inj h))]
          rw [hinv i x hx]
          have hmemiff : (x ∈ P ∧ 1 < names.count x) ↔
              (x ∈ (d :: P) ∧ 1 < names.count x) := by
            refine ⟨fun ⟨hm, hc⟩ =>
              ⟨List.mem_cons_of_mem _ hm, hc⟩, fun ⟨hm, hc⟩ => ?_⟩
            rcases List.mem_cons.mp hm with h | h
            · exact absurd h hxd
            · exact ⟨h, hc⟩
          exact congrArg some (if_congr hmemiff rfl rfl)
      obtain ⟨hlen2, hval⟩ := ih (d :: P) (renameNames d 1 cur)
        hds_nodup hds_mem hds_notP'
        (by rw [renameNames_length]; exact hlen) hinv'
      refine ⟨hlen2, fun i x hx => ?_⟩
      rw [hval i x hx]
      exact congrArg some (if_congr (hiff x) rfl rfl)
    · rw [if_neg hcnt]
      have hinv' : ∀ (i : Nat) (x : Str), names[i]? = some x →
          cur[i]? = some (if x ∈ (d :: P) ∧ 1 < names.count x
            then x ++ natToStr (1 + (names.take i).count x) else x) := by
        intro i x hx
        rw [hinv i x hx]
        have hmemiff : (x ∈ P ∧ 1 < names.count x) ↔
            (x ∈ (d :: P) ∧ 1 < names.count x) := by
          refine ⟨fun ⟨hm, hc⟩ =>
            ⟨List.mem_cons_of_mem _ hm, hc⟩, fun ⟨hm, hc⟩ => ?_⟩
          rcases List.mem_cons.mp hm with h | h
          · exact absurd hc (h ▸ hcnt)
          · exact ⟨h, hc⟩
        exact congrArg some (if_congr hmemiff rfl rfl)
      obtain ⟨hlen2, hval⟩ := ih (d :: P) cur hds_nodup hds_mem
        hds_notP' hlen hinv'
      refine ⟨hlen2, fun i x hx => ?_⟩
      rw [hval i x hx]
      exact congrArg some (if_congr (hiff x) rfl rfl)

/-- Positional characterization of the deduplication pass when no
derived name ends in a digit: a name with a single occurrence is kept,
a name with several occurrences gets its 1-based occurrence index
appended. -/
theorem dedupNames_getElem (names : List Str)
    (H : ∀ n ∈ names, endsInDigit n = false) :
    (dedupNames names).length = names.length ∧
    (∀ (i : Nat) (x : Str), names[i]? = some x →
      (dedupNames names)[i]? = some (if 1 < names.count x
        then x ++ natToStr (1 + (names.take i).count x) else x)) := by
  obtain ⟨h1, h2⟩ := fold_invariant names H (firstOccurrences names) []
    names (firstOccurrences_nodup names)
    (fun d hd => mem_firstOccurrences.mp hd)
    (fun d _ hmem => (List.not_mem_nil d) hmem)
    rfl
    (fun i x hx => by
      rw [if_neg (fun hc => (List.not_mem_nil x) hc.1)]
      exact hx)
  refine ⟨h1, fun i x hx => ?_⟩
  rw [dedupNames, h2 i x hx]
  have hx_mem : x ∈ names := List.getElem?_mem hx
  have hiff2 : ((x ∈ ([] : List Str) ∨ x ∈ firstOccurrences names) ∧
      1 < names.count x) ↔ (1 < names.count x) :=
    ⟨fun h => h.2, fun h =>
      ⟨Or.inr (mem_firstOccurrences.mpr hx_mem), h⟩⟩
  exact congrArg some (if_congr hiff2 rfl rfl)

theorem count_two_of_two_pos {names : List Str} {i j : Nat} {x : Str}
    (hij : i < j) (hi : names[i]? = some x) (hj : names[j]? = some x) :
    1 < names.count x := by
  have hx_take : x ∈ names.take j := by
    have h : (names.take j)[i]? = some x := by
      rw [List.getElem?_take_of_lt hij]
      exact hi
    exact List.getElem?_mem h
  have h1 : 0 < (names.take j).count x := List.count_pos_iff.mpr hx_take
  have htake : names.take (j + 1) = names.take j ++ [x] := by
    rw [List.take_succ, hj]
    rfl
  have h2 : (names.take (j + 1)).count x =
      (names.take j).count x + 1 := by
    rw [htake, List.count_append]
    simp
  have h3 : (names.take (j + 1)).count x ≤ names.count x :=
    (List.take_prefix _ _).count_le x
  omega

theorem count_take_lt {names : List Str} {i j : Nat} {x : Str}
    (hij : i < j) (hi : names[i]? = some x) :
    (names.take i).count x < (names.take j).count x := by
  have htake : names.take (i + 1) = names.take i ++ [x] := by
    rw [List.take_succ, hi]
    rfl
  have h1 : (names.take (i + 1)).count x =
      (names.take i).count x + 1 := by
    rw [htake, List.count_append]
    simp
  have h2 : (names.take (i + 1)).count x ≤ (names.take j).count x := by
    have hpre : names.take (i + 1) <+: names.take j := by
      rw [show names.take (i + 1) = (names.take j).take (i + 1) from by
        rw [List.take_take]
        congr 1
        omega]
      exact List.take_prefix _ _
    exact hpre.count_le x
  omega

theorem dedupNames_nodup (names : List Str)
    (H : ∀ n ∈ names, endsInDigit n = false) :
    (dedupNames names).Nodup := by
  obtain ⟨hlen, hval⟩ := dedupNames_getElem names H
  rw [List.nodup_iff_getElem?_ne_getElem?]
  intro i j hij hjlen
  rw [hlen] at hjlen
  cases hni : names[i]? with
  | none =>
    rw [List.getElem?_eq_none_iff] at hni
    omega
  | some xi =>
    cases hnj : names[j]? with
    | none =>
      rw [List.getElem?_eq_none_iff] at hnj
      omega
    | some xj =>
      rw [hval i xi hni, hval j xj hnj]
      intro heq
      have heq' := Option.some.inj heq
      by_cases hci : 1 < names.count xi <;>
        by_cases hcj : 1 < names.count xj
      · rw [if_pos hci, if_pos hcj] at heq'
        obtain ⟨hxx, hidx⟩ := append_natToStr_inj
          (H xi (List.getElem?_mem hni)) (H xj (List.getElem?_mem hnj))
          (by omega) (by omega) heq'
        subst hxx
        have hlt := count_take_lt hij hni
        omega
      · rw [if_pos hci, if_neg hcj] at heq'
        have h1 := endsInDigit_append_natToStr xi
          (show 0 < 1 + (names.take i).count xi by omega)
        rw [heq', H xj (List.getElem?_mem hnj)] at h1
        cases h1
      · rw [if_neg hci, if_pos hcj] at heq'
        have h1 := endsInDigit_append_natToStr xj
          (show 0 < 1 + (names.take j).count xj by omega)
        rw [← heq', H xi (List.getElem?_mem hni)] at h1
        cases h1
      · rw [if_neg hci, if_neg hcj] at heq'
        subst heq'
        exact absurd (count_two_of_two_pos hij hni hnj) hci

theorem assignRevAux_map_name (l : List CppParam) :
    (assignRevAux l).map (fun p => p.name) = l.map (fun p => p.name) := by
  induction l with
  | nil => rfl
  | cons p rest ih =>
    rw [assignRevAux]
    by_cases hp : isOptVec p.type = true
    · rw [if_pos hp]
      simp [ih]
    · rw [if_neg hp]

theorem assign_map_name (l : List CppParam) :
    (assign_default_values l).map (fun p => p.name) =
      l.map (fun p => p.name) := by
  rw [assign_default_values, List.map_reverse, assignRevAux_map_name,
    List.map_reverse, List.reverse_reverse]

/-- C1 amended: the parameter names of the emitted signature (after the
deduplication pass and the name-preserving trailing-default pass) are
pairwise distinct, provided no derived name ends in a decimal digit; a
derived name that already ends in a digit can coincide with the
index-suffixed renaming of a duplicated name, defeating the pass. -/
theorem dedup_names_unique (ps : List CppParam)
    (H : ∀ p ∈ ps, endsInDigit p.name = false) :
    ((assign_default_values (dedup_param_names ps)).map
      (fun p => p.name)).Nodup := by
  rw [assign_map_name, map_name_dedup]
  refine dedupNames_nodup _ fun n hn => ?_
  obtain ⟨p, hp, rfl⟩ := List.mem_map.mp hn
  exact H p hp

/-- C1 witness: two parameters sharing the derived name a and one named
b are renamed to a1, a2, b — pairwise distinct. -/
theorem dedup_names_unique_witness :
    ((assign_default_values (dedup_param_names
      [⟨"T".data, "a".data, []⟩, ⟨"T".data, "a".data, []⟩,
       ⟨"T".data, "b".data, []⟩])).map (fun p => p.name)).Nodup :=
  dedup_names_unique
    [⟨"T".data, "a".data, []⟩, ⟨"T".data, "a".data, []⟩,
     ⟨"T".data, "b".data, []⟩] (by decide)

/-- C1 counterexample: with derived names a, a, a1 the deduplication
pass renames the two occurrences of a to a1 and a2, colliding with the
pre-existing a1 — the claimed pairwise distinctness fails when a derived
name already ends in a digit. -/
theorem dedup_names_counterexample :
    ((dedup_param_names
      [⟨"T".data, "a".data, []⟩, ⟨"T".data, "a".data, []⟩,
       ⟨"T".data, "a1".data, []⟩]).map (fun p => p.name)) =
      ["a1".data, "a2".data, "a1".data] ∧
    ¬((dedup_param_names
      [⟨"T".data, "a".data, []⟩, ⟨"T".data, "a".data, []⟩,
       ⟨"T".data, "a1".data, []⟩]).map (fun p => p.name)).Nodup := by
  refine ⟨by decide, by decide⟩

end DynSpv
